import Mathlib

/-!
# TONWalletManager: the config store, the receiver files and the disbursement loop

A shallow embedding of `main.go`.  Go strings that hold UTF-8 text are modelled as the list
of their code points; the collaborators of the program (the file system, the ledger client,
the address and amount parsers of the ledger library) are parameters of the model.
-/

namespace TONWalletManager

/-! ## Text -/

/-- A Go string holding UTF-8 text, as the sequence of its code points. -/
abbrev Str := List Char

/-- Length of a Go string in bytes (the length of its UTF-8 encoding). -/
def byteLen (s : Str) : Nat := (s.map Char.utf8Size).sum

/-! ## bufio.Scanner with the default split function ScanLines -/

/-- The constant `bufio.MaxScanTokenSize`: the size of the buffer a default Scanner may grow to. -/
def maxScanTokenSize : Nat := 64 * 1024

/-- The pieces `bufio.ScanLines` cuts a text into, before the carriage return is dropped:
the text is cut after every line feed, and a last piece that has no line feed is a line
only when it is not empty. -/
def rawLines : List Char → List Str
  | [] => []
  | c :: cs =>
    if c = '\n' then [] :: rawLines cs
    else match rawLines cs with
      | [] => [[c]]
      | l :: ls => (c :: l) :: ls

/-- The helper `dropCR` of package bufio: one trailing carriage return is removed. -/
def dropCR (line : Str) : Str :=
  if line.getLast? = some '\r' then line.dropLast else line

/-- Errors of the file operations the program checks. -/
inductive IOError where
  /-- `os.Open` or a read of the file failed. -/
  | os
  /-- The error `bufio.ErrTooLong`: a line does not fit in the buffer of the Scanner. -/
  | tooLong
  deriving DecidableEq, Repr

/-- The lines a default `bufio.Scanner` delivers for a text, with the value of `scanner.Err()`
after the loop `for scanner.Scan()`.  A line is delivered when it fits, with its line feed, in the
buffer of `maxScanTokenSize` bytes; an unterminated last line must leave the buffer not full.
Scanning stops at the first line that is too long, and `Err()` is then `ErrTooLong`. -/
def scanLines : List Str → List Str × Option IOError
  | [] => ([], none)
  | l :: ls =>
    if byteLen l < maxScanTokenSize then
      ((dropCR l) :: (scanLines ls).1, (scanLines ls).2)
    else ([], some IOError.tooLong)

deriving instance DecidableEq for Except

/-! ## Go maps from string to string -/

/-- A Go `map[string]string`: its entries, every key once.  The order of the list is the
order in which the keys were first assigned; Go does not expose it. -/
abbrev GoMap := List (Str × Str)

/-- The assignment `m[k] = v`. -/
def GoMap.assign : GoMap → Str → Str → GoMap
  | [], k, v => [(k, v)]
  | (k0, v0) :: m, k, v => if k0 = k then (k0, v) :: m else (k0, v0) :: GoMap.assign m k v

/-- The lookup `v, ok := m[k]`. -/
def GoMap.get : GoMap → Str → Option Str
  | [], _ => none
  | (k0, v0) :: m, k => if k0 = k then some v0 else GoMap.get m k

/-- The keys of a map. -/
def GoMap.keys (m : GoMap) : List Str := m.map Prod.fst

/-! ## strings.SplitN and strings.Fields -/

/-- The cut of a string at the first occurrence of a separator character. -/
def cut (sep : Char) : Str → Option (Str × Str)
  | [] => none
  | c :: cs =>
    if c = sep then some ([], cs)
    else match cut sep cs with
      | none => none
      | some (a, b) => some (c :: a, b)

/-- The call `strings.SplitN(line, "=", 2)`: the whole line when it has no "=", else the
part before the first "=" and the part after it. -/
def splitN2 (line : Str) : List Str :=
  match cut '=' line with
  | none => [line]
  | some (a, b) => [a, b]

/-- The predicate `unicode.IsSpace`. -/
def isSpace (c : Char) : Bool :=
  let n := c.toNat
  (9 ≤ n && n ≤ 13) || n = 32 || n = 0x85 || n = 0xA0 || n = 0x1680 ||
  (0x2000 ≤ n && n ≤ 0x200A) || n = 0x2028 || n = 0x2029 || n = 0x202F ||
  n = 0x205F || n = 0x3000

/-- The loop of `strings.Fields`: `cur` is the field being read. -/
def fieldsFrom (cur : Str) : List Char → List Str
  | [] => if cur = [] then [] else [cur]
  | c :: cs =>
    if isSpace c then
      (if cur = [] then fieldsFrom [] cs else cur :: fieldsFrom [] cs)
    else fieldsFrom (cur ++ [c]) cs

/-- The call `strings.Fields(line)`: the maximal runs of characters that are not white space. -/
def fields (line : Str) : List Str := fieldsFrom [] line

/-! ## The config store and the receiver files -/

/-- The body of the scan loop of `readConfig`, for one line. -/
def configStep (config : GoMap) (line : Str) : GoMap :=
  match splitN2 line with
  | [k, v] => GoMap.assign config k v
  | _ => config

/-- The function `readConfig`.  The argument is what opening and reading the file gives: `none`
when `os.Open` or a read fails, else the text of the file. -/
def readConfig (file : Option (List Char)) : Except IOError GoMap :=
  match file with
  | none => Except.error IOError.os
  | some text =>
    match scanLines (rawLines text) with
    | (lines, none) => Except.ok (lines.foldl configStep [])
    | (_, some e) => Except.error e

/-- The text `writeConfig` writes when every write succeeds: one line `key=value` for each
entry, in the order `range config` yields the entries. -/
def writeConfig (order : List (Str × Str)) : List Char :=
  match order with
  | [] => []
  | (k, v) :: rest => k ++ '=' :: v ++ '\n' :: writeConfig rest

/-- The body of the scan loop of `readReceivers`, for one line. -/
def receiverStep (receivers : GoMap) (line : Str) : GoMap :=
  match fields line with
  | [a, b] => GoMap.assign receivers a b
  | _ => receivers

/-- The function `readReceivers`, on what opening and reading the file gives. -/
def readReceivers (file : Option (List Char)) : Except IOError GoMap :=
  match file with
  | none => Except.error IOError.os
  | some text =>
    match scanLines (rawLines text) with
    | (lines, none) => Except.ok (lines.foldl receiverStep [])
    | (_, some e) => Except.error e

/-- The lines of a text as a Scanner with `ScanLines` delivers them when every line fits. -/
def fileLines (text : List Char) : List Str := (rawLines text).map dropCR

/-- The entry a line of a receiver file stands for: its two fields, when it has exactly two. -/
def lineEntry (line : Str) : Option (Str × Str) :=
  match fields line with
  | [a, b] => some (a, b)
  | _ => none

/-- The assignment a line of a file stands for, when it stands for one. -/
def applyEntry (m : GoMap) (o : Option (Str × Str)) : GoMap :=
  match o with
  | some (a, b) => GoMap.assign m a b
  | none => m

/-! ## Paths (package path/filepath, Unix) and base64 -/

/-- The call `strings.Split(s, sep)` for a separator of one character. -/
def splitOn (sep : Char) : List Char → List Str
  | [] => [[]]
  | c :: cs =>
    if c = sep then [] :: splitOn sep cs
    else match splitOn sep cs with
      | [] => [[c]]
      | l :: ls => (c :: l) :: ls

/-- One element of a path read by `filepath.Clean`; `out` holds the elements written so far.
An empty element and "." are skipped; ".." removes the last element written when that is
a name, and is kept when the path is not rooted and there is no name to remove. -/
def cleanStep (rooted : Bool) (out : List Str) (elem : Str) : List Str :=
  if elem = [] ∨ elem = ['.'] then out
  else if elem = ['.', '.'] then
    match out.getLast? with
    | none => if rooted then out else out ++ [elem]
    | some e => if e = ['.', '.'] then (if rooted then out else out ++ [elem]) else out.dropLast
  else out ++ [elem]

/-- The function `filepath.Clean` (no volume names, separator "/"). -/
def clean (path : Str) : Str :=
  match path with
  | [] => ['.']
  | c :: _ =>
    let rooted : Bool := c = '/'
    let out := (splitOn '/' path).foldl (cleanStep rooted) []
    if rooted then '/' :: List.intercalate ['/'] out
    else if out = [] then ['.'] else List.intercalate ['/'] out

/-- The call `filepath.Join(a, b)`. -/
def join (a b : Str) : Str :=
  if a ≠ [] then clean (a ++ '/' :: b)
  else if b ≠ [] then clean b
  else []

/-- The function `filepath.Dir`: the cleaned path up to the last separator. -/
def dir (path : Str) : Str :=
  clean (path.reverse.dropWhile (fun c => c ≠ '/')).reverse

/-- The function `filepath.Base`: the last element of the path. -/
def base (path : Str) : Str :=
  if path = [] then ['.']
  else
    let stripped := path.reverse.dropWhile (fun c => c = '/')
    let last := (stripped.takeWhile (fun c => c ≠ '/')).reverse
    if last = [] then ['/'] else last

/-- The alphabet of `base64.StdEncoding`. -/
def encodeStd : List Char :=
  "ABCDEFGHIJKLMNOPQRSTUVWXYZabcdefghijklmnopqrstuvwxyz0123456789+/".toList

/-- The character of `base64.StdEncoding` for a value of six bits. -/
def encodeChar (n : Nat) : Char := encodeStd.getD (n % 64) 'A'

/-- The call `base64.StdEncoding.EncodeToString`: three bytes give four characters, and
the last one or two bytes are padded with "=". -/
def encodeToString : List (Fin 256) → List Char
  | a :: b :: c :: rest =>
    let v := a.val * 65536 + b.val * 256 + c.val
    encodeChar (v / 262144) :: encodeChar (v / 4096) :: encodeChar (v / 64) :: encodeChar v ::
      encodeToString rest
  | [a, b] =>
    let v := a.val * 65536 + b.val * 256
    [encodeChar (v / 262144), encodeChar (v / 4096), encodeChar (v / 64), '=']
  | [a] =>
    let v := a.val * 65536
    [encodeChar (v / 262144), encodeChar (v / 4096), '=', '=']
  | [] => []

/-- A transaction hash returned by a successful submit: 32 bytes. -/
structure TxHash where
  /-- The bytes of the hash. -/
  bytes : List (Fin 256)
  /-- A hash has 32 bytes. -/
  size : bytes.length = 32
  deriving DecidableEq

/-- The name `newFileName` of `autoSend`:
`fmt.Sprintf("%s_%s.log", filepath.Base(file), base64.StdEncoding.EncodeToString(txHash)[:8])`.
The encoding of 32 bytes has 44 characters, so the slice is in range. -/
def newFileName (file : Str) (txHash : TxHash) : Str :=
  base file ++ '_' :: (encodeToString txHash.bytes).take 8 ++ ".log".toList

/-- The path `newFilePath` of `autoSend`: `filepath.Join(filepath.Dir(file), newFileName)`. -/
def newFilePath (file : Str) (txHash : TxHash) : Str :=
  join (dir file) (newFileName file txHash)

/-! ## The batch of one receiver file -/

/-- A `wallet.Message` with its `tlb.InternalMessage`, as `autoSend` fills it. -/
structure Message (Addr Coins Cell : Type) where
  /-- The field `Mode`. -/
  mode : Nat
  /-- The field `IHRDisabled`. -/
  ihrDisabled : Bool
  /-- The field `Bounce`. -/
  bounce : Bool
  /-- The field `DstAddr`. -/
  dstAddr : Addr
  /-- The field `Amount`. -/
  amount : Coins
  /-- The field `Body`. -/
  body : Cell
  deriving DecidableEq

/-- The collaborators of `autoSend`: the pure functions of the ledger library, and the calls
that read or change the world, which take a state of the world and return the next one. -/
structure World (σ Addr Coins Cell : Type) where
  /-- The call `address.ParseAddr`; `none` is an error. -/
  parseAddr : Str → Option Addr
  /-- The method `IsBounceable` of a parsed address. -/
  isBounceable : Addr → Bool
  /-- The call `tlb.FromTON`; `none` is an error. -/
  fromTON : Str → Option Coins
  /-- The call `wallet.CreateCommentCell`; `none` is an error. -/
  createCommentCell : Str → Option Cell
  /-- Opening a file and reading it to its end; `none` when either fails. -/
  readFile : Str → σ → Option (List Char) × σ
  /-- The call `client.AddConnectionsFromConfigUrl`; `false` is an error. -/
  addConnections : σ → Bool × σ
  /-- The call `wallet.FromSeed` on the words of the seed; `false` is an error. -/
  fromSeed : List Str → σ → Bool × σ
  /-- The call `api.CurrentMasterchainInfo`; `false` is an error. -/
  currentMasterchainInfo : σ → Bool × σ
  /-- The call `w.GetBalance`, in nano units; `none` is an error. -/
  getBalance : σ → Option Nat × σ
  /-- The call `filepath.Glob`; `none` is an error. -/
  glob : Str → σ → Option (List Str) × σ
  /-- The order in which `range` yields the entries of a map. -/
  rangeOrder : GoMap → σ → List (Str × Str) × σ
  /-- A `range` yields every entry of the map once. -/
  rangeOrder_perm : ∀ m s, (rangeOrder m s).1.Perm m
  /-- The call `w.SendManyWaitTxHash`; `none` is an error. -/
  sendManyWaitTxHash : List (Message Addr Coins Cell) → σ → Option TxHash × σ
  /-- The call `os.Rename`; `false` is an error. -/
  rename : Str → Str → σ → Bool × σ

section Model

variable {σ Addr Coins Cell : Type}

/-- The body of the loop `for addrStr, amtStr := range receivers` of `autoSend`. -/
def messageStep (w : World σ Addr Coins Cell) (comment : Cell)
    (messages : List (Message Addr Coins Cell)) (entry : Str × Str) :
    List (Message Addr Coins Cell) :=
  match w.parseAddr entry.1 with
  | none => messages
  | some addrParsed =>
    match w.fromTON entry.2 with
    | none => messages
    | some amount =>
      messages ++ [{ mode := 1 + 2, ihrDisabled := true, bounce := w.isBounceable addrParsed,
                     dstAddr := addrParsed, amount := amount, body := comment }]

/-- The batch-building loop of `autoSend`, over the entries in the order `range` yields them. -/
def buildMessages (w : World σ Addr Coins Cell) (comment : Cell) (order : List (Str × Str)) :
    List (Message Addr Coins Cell) :=
  order.foldl (messageStep w comment) []

/-- The instruction the batch-building loop appends for one entry: the entry gives one when
both its address and its amount parse, and none otherwise. -/
def entryMessage (w : World σ Addr Coins Cell) (comment : Cell) (entry : Str × Str) :
    Option (Message Addr Coins Cell) :=
  match w.parseAddr entry.1, w.fromTON entry.2 with
  | some addrParsed, some amount =>
    some { mode := 1 + 2, ihrDisabled := true, bounce := w.isBounceable addrParsed,
           dstAddr := addrParsed, amount := amount, body := comment }
  | _, _ => none

/-! ## One cycle of autoSend -/

/-- The calls of one cycle that the properties below speak about, with their results.
The `file` of an event is the receiver file the loop is at. -/
inductive Event (Addr Coins Cell : Type) where
  /-- The call `w.GetBalance` returned this balance, in nano units. -/
  | balance (nano : Nat)
  /-- The call `filepath.Glob` returned these files. -/
  | glob (files : List Str)
  /-- The call `readReceivers(file)`, and whether it returned without error. -/
  | read (file : Str) (ok : Bool)
  /-- The call `wallet.CreateCommentCell`, and whether it returned without error. -/
  | commentCell (file : Str) (ok : Bool)
  /-- The call `w.SendManyWaitTxHash(messages)` and its result; `none` is an error. -/
  | submit (file : Str) (messages : List (Message Addr Coins Cell)) (result : Option TxHash)
  /-- The call `os.Rename(file, newPath)`, and whether it returned without error. -/
  | rename (file : Str) (newPath : Str) (ok : Bool)
  deriving DecidableEq

/-- The value `balance.Nano().Uint64()` the loop compares with the threshold. -/
def comparedBalance (nano : Nat) : Nat := nano % 2 ^ 64

/-- The minimum balance of `autoSend`, in nano units. -/
def minBalance : Nat := 300000

/-- The body of the loop `for _, file := range files` of `autoSend`, for one file: the calls
made, whether the loop goes on to the next file (`false` after `break`), and the next state. -/
def processFile (w : World σ Addr Coins Cell) (balance : Nat) (commentText : Str)
    (file : Str) (s : σ) : List (Event Addr Coins Cell) × Bool × σ :=
  let r := w.readFile file s
  match readReceivers r.1 with
  | Except.error _ => ([Event.read file false], true, r.2)
  | Except.ok receivers =>
    if comparedBalance balance < minBalance then ([Event.read file true], false, r.2)
    else
      match w.createCommentCell commentText with
      | none => ([Event.read file true, Event.commentCell file false], true, r.2)
      | some comment =>
        let o := w.rangeOrder receivers r.2
        let messages := buildMessages w comment o.1
        let t := w.sendManyWaitTxHash messages o.2
        match t.1 with
        | none =>
          ([Event.read file true, Event.commentCell file true, Event.submit file messages none],
            true, t.2)
        | some txHash =>
          let n := w.rename file (newFilePath file txHash) t.2
          ([Event.read file true, Event.commentCell file true,
            Event.submit file messages (some txHash),
            Event.rename file (newFilePath file txHash) n.1], true, n.2)

/-- The loop `for _, file := range files` of `autoSend`. -/
def processFiles (w : World σ Addr Coins Cell) (balance : Nat) (commentText : Str) :
    List Str → σ → List (Event Addr Coins Cell) × σ
  | [], s => ([], s)
  | file :: rest, s =>
    let r := processFile w balance commentText file s
    if r.2.1 then
      ((r.1 ++ (processFiles w balance commentText rest r.2.2).1),
        (processFiles w balance commentText rest r.2.2).2)
    else (r.1, r.2.2)

/-- The value `config[key]` of a Go map: the empty string when the key is absent. -/
def GoMap.index (m : GoMap) (key : Str) : Str := (GoMap.get m key).getD []

/-- One pass through the body of the loop `for` of `autoSend`, up to the sleep that ends it:
the calls made (see `Event`) and the next state of the world. -/
def autoSendCycle (w : World σ Addr Coins Cell) (s : σ) : List (Event Addr Coins Cell) × σ :=
  let c := w.readFile "config.txt".toList s
  match readConfig c.1 with
  | Except.error _ => ([], c.2)
  | Except.ok config =>
    let seed := splitOn ' ' (GoMap.index config "seed".toList)
    let commentText := GoMap.index config "comment".toList
    let folderPath := GoMap.index config "folder_path".toList
    let a := w.addConnections c.2
    if a.1 = false then ([], a.2)
    else
      let f := w.fromSeed seed a.2
      if f.1 = false then ([], f.2)
      else
        let b := w.currentMasterchainInfo f.2
        if b.1 = false then ([], b.2)
        else
          let g := w.getBalance b.2
          match g.1 with
          | none => ([], g.2)
          | some balance =>
            let l := w.glob (join folderPath "*.txt".toList) g.2
            match l.1 with
            | none => ([Event.balance balance], l.2)
            | some files =>
              if files.length = 0 then ([Event.balance balance, Event.glob files], l.2)
              else
                (Event.balance balance :: Event.glob files ::
                  (processFiles w balance commentText files l.2).1,
                  (processFiles w balance commentText files l.2).2)

/-- The files of the calls to `SendManyWaitTxHash`, in the order of the calls. -/
def submitted (ev : List (Event Addr Coins Cell)) : List Str :=
  ev.filterMap (fun e => match e with
    | Event.submit file _ _ => some file
    | _ => none)

/-- The files of the calls to `os.Rename`, in the order of the calls. -/
def renameCalls (ev : List (Event Addr Coins Cell)) : List Str :=
  ev.filterMap (fun e => match e with
    | Event.rename file _ _ => some file
    | _ => none)

/-- The files `readReceivers` was called on, in the order of the calls. -/
def readCalls (ev : List (Event Addr Coins Cell)) : List Str :=
  ev.filterMap (fun e => match e with
    | Event.read file _ => some file
    | _ => none)

/-- The files `readReceivers` read without error, in the order of the calls. -/
def readable (ev : List (Event Addr Coins Cell)) : List Str :=
  ev.filterMap (fun e => match e with
    | Event.read file true => some file
    | _ => none)

/-- The calls to `SendManyWaitTxHash` in the order they are made: the file the loop is at,
the messages passed and the result. -/
def submitCalls (ev : List (Event Addr Coins Cell)) :
    List (Str × List (Message Addr Coins Cell) × Option TxHash) :=
  ev.filterMap (fun e => match e with
    | Event.submit file messages result => some (file, messages, result)
    | _ => none)

/-- The submits the loop over the files owes when the balance is enough and the comment
payload `comment` was built, in the words of the specification: the files are taken in the
order of the enumeration; a file that cannot be read is passed over; for every file that can
be read one submit is made, of the batch built from its receivers, whatever the number of
instructions; a submit that fails leaves the file as it is and one that succeeds is followed
by the rename, whose result does not matter; in both cases the next file comes. -/
def expectedSubmits (w : World σ Addr Coins Cell) (comment : Cell) :
    List Str → σ → List (Str × List (Message Addr Coins Cell) × Option TxHash)
  | [], _ => []
  | file :: rest, s =>
    match readReceivers (w.readFile file s).1 with
    | Except.error _ => expectedSubmits w comment rest (w.readFile file s).2
    | Except.ok receivers =>
      let o := w.rangeOrder receivers (w.readFile file s).2
      let t := w.sendManyWaitTxHash (buildMessages w comment o.1) o.2
      match t.1 with
      | none => (file, buildMessages w comment o.1, none) :: expectedSubmits w comment rest t.2
      | some txHash =>
        (file, buildMessages w comment o.1, some txHash) ::
          expectedSubmits w comment rest (w.rename file (newFilePath file txHash) t.2).2

/-- The part of the body of the loop `for` of `autoSend` before the loop over the files:
the balance, the comment text, the files found and the state of the world with which the
loop over the files is entered, and `none` when a call fails and the cycle ends before it. -/
def loopInputs (w : World σ Addr Coins Cell) (s : σ) : Option (Nat × Str × List Str × σ) :=
  let c := w.readFile "config.txt".toList s
  match readConfig c.1 with
  | Except.error _ => none
  | Except.ok config =>
    let seed := splitOn ' ' (GoMap.index config "seed".toList)
    let commentText := GoMap.index config "comment".toList
    let folderPath := GoMap.index config "folder_path".toList
    let a := w.addConnections c.2
    if a.1 = false then none
    else
      let f := w.fromSeed seed a.2
      if f.1 = false then none
      else
        let b := w.currentMasterchainInfo f.2
        if b.1 = false then none
        else
          let g := w.getBalance b.2
          match g.1 with
          | none => none
          | some balance =>
            let l := w.glob (join folderPath "*.txt".toList) g.2
            match l.1 with
            | none => none
            | some files => some (balance, commentText, files, l.2)

/-- The receiver file the loop is at when a call is made; the calls before the loop have none. -/
def Event.file (e : Event Addr Coins Cell) : Option Str :=
  match e with
  | Event.balance _ => none
  | Event.glob _ => none
  | Event.read file _ => some file
  | Event.commentCell file _ => some file
  | Event.submit file _ _ => some file
  | Event.rename file _ _ => some file

/-- The calls of the loop body for one file, in one of its five courses. -/
inductive FileRun (balance : Nat) (file : Str) :
    List (Event Addr Coins Cell) → Bool → Prop where
  | readFailed : FileRun balance file [Event.read file false] true
  | gated (h : comparedBalance balance < minBalance) :
      FileRun balance file [Event.read file true] false
  | commentFailed (h : ¬ comparedBalance balance < minBalance) :
      FileRun balance file [Event.read file true, Event.commentCell file false] true
  | submitFailed (h : ¬ comparedBalance balance < minBalance)
      (messages : List (Message Addr Coins Cell)) :
      FileRun balance file [Event.read file true, Event.commentCell file true,
        Event.submit file messages none] true
  | submitted (h : ¬ comparedBalance balance < minBalance)
      (messages : List (Message Addr Coins Cell)) (txHash : TxHash) (ok : Bool) :
      FileRun balance file [Event.read file true, Event.commentCell file true,
        Event.submit file messages (some txHash),
        Event.rename file (newFilePath file txHash) ok] true

/-- The calls of the loop over the files: the runs of the files in order, up to a `break`. -/
inductive FilesRun (balance : Nat) : List Str → List (Event Addr Coins Cell) → Prop where
  | nil : FilesRun balance [] []
  | stop (file : Str) (rest : List Str) (ev : List (Event Addr Coins Cell))
      (h : FileRun balance file ev false) : FilesRun balance (file :: rest) ev
  | next (file : Str) (rest : List Str) (ev evs : List (Event Addr Coins Cell))
      (h : FileRun balance file ev true) (hrest : FilesRun balance rest evs) :
      FilesRun balance (file :: rest) (ev ++ evs)

end Model

/-! ## A world for the examples -/

/-- A transaction hash of 32 zero bytes. -/
def zeroHash : TxHash := ⟨List.replicate 32 0, by decide⟩

/-- A transaction hash whose bytes are 3, 240 and thirty zero bytes; its encoding in the
standard base64 alphabet starts with "A/AAAAAA". -/
def slashHash : TxHash := ⟨3 :: 240 :: List.replicate 30 0, by decide⟩

/-- The files of the example world. -/
def demoFile (path : Str) : Option (List Char) :=
  if path = "config.txt".toList then some "seed=a b\ncomment=hi\nfolder_path=data\n".toList
  else if path = "data/batch1.txt".toList then some "A 1\nB 2\n".toList
  else if path = "data/batch2.txt".toList then some "C 3\nskipped line here\nbad 4\n".toList
  else if path = "data/empty.txt".toList then some []
  else none

/-- The example world.  Its state counts the calls to `SendManyWaitTxHash`; the first call
fails and the later ones succeed.  The address "bad" and the amount "x" do not parse. -/
def demoWorld (balance : Nat) : World Nat Str Str Str where
  parseAddr := fun a => if a = "bad".toList then none else some a
  isBounceable := fun _ => true
  fromTON := fun a => if a = "x".toList then none else some a
  createCommentCell := fun t => some t
  readFile := fun path s => (demoFile path, s)
  addConnections := fun s => (true, s)
  fromSeed := fun _ s => (true, s)
  currentMasterchainInfo := fun s => (true, s)
  getBalance := fun s => (some balance, s)
  glob := fun _ s =>
    (some ["data/batch1.txt".toList, "data/batch2.txt".toList, "data/missing.txt".toList,
      "data/empty.txt".toList], s)
  rangeOrder := fun m s => (m.reverse, s)
  rangeOrder_perm := fun m _ => List.reverse_perm m
  sendManyWaitTxHash := fun _ s => (if s = 0 then none else some zeroHash, s + 1)
  rename := fun _ _ s => (true, s)

/-! ## Lemmas: Go maps -/

theorem GoMap.get_assign (m : GoMap) (k v k1 : Str) :
    GoMap.get (GoMap.assign m k v) k1 = if k = k1 then some v else GoMap.get m k1 := by
  induction m with
  | nil => simp [GoMap.assign, GoMap.get]
  | cons e m ih =>
    obtain ⟨k0, v0⟩ := e
    by_cases h : k0 = k
    · subst h
      by_cases h1 : k0 = k1 <;> simp [GoMap.assign, GoMap.get, h1]
    · by_cases h1 : k0 = k1
      · subst h1
        have h2 : ¬ k = k0 := fun h3 => h h3.symm
        simp [GoMap.assign, GoMap.get, h, h2]
      · simp [GoMap.assign, GoMap.get, h, h1, ih]

theorem GoMap.assign_of_not_mem (m : GoMap) (k v : Str) (h : k ∉ GoMap.keys m) :
    GoMap.assign m k v = m ++ [(k, v)] := by
  induction m with
  | nil => simp [GoMap.assign]
  | cons e m ih =>
    obtain ⟨k0, v0⟩ := e
    simp only [GoMap.keys, List.map_cons, List.mem_cons, not_or] at h
    have h0 : ¬ k0 = k := fun h3 => h.1 h3.symm
    simp [GoMap.assign, h0, ih h.2]

theorem GoMap.keys_assign (m : GoMap) (k v : Str) :
    GoMap.keys (GoMap.assign m k v) = if k ∈ GoMap.keys m then GoMap.keys m
      else GoMap.keys m ++ [k] := by
  induction m with
  | nil => simp [GoMap.assign, GoMap.keys]
  | cons e m ih =>
    obtain ⟨k0, v0⟩ := e
    by_cases h : k0 = k
    · subst h
      simp [GoMap.assign, GoMap.keys]
    · have h0 : ¬ k = k0 := fun h3 => h h3.symm
      simp only [GoMap.keys] at ih
      by_cases hm : k ∈ List.map Prod.fst m
      · simp [GoMap.assign, GoMap.keys, h, h0, hm, ih]
      · simp [GoMap.assign, GoMap.keys, h, h0, hm, ih]

theorem GoMap.keys_assign_nodup (m : GoMap) (k v : Str) (h : (GoMap.keys m).Nodup) :
    (GoMap.keys (GoMap.assign m k v)).Nodup := by
  rw [GoMap.keys_assign]
  by_cases hm : k ∈ GoMap.keys m
  · simpa [hm] using h
  · simp only [hm, if_false]
    exact List.Nodup.append h (List.nodup_singleton k) (by simpa using hm)

theorem GoMap.get_eq_some_iff (m : GoMap) (h : (GoMap.keys m).Nodup) (k v : Str) :
    GoMap.get m k = some v ↔ (k, v) ∈ m := by
  induction m with
  | nil => simp [GoMap.get]
  | cons e m ih =>
    obtain ⟨k0, v0⟩ := e
    simp only [GoMap.keys, List.map_cons, List.nodup_cons] at h
    by_cases h0 : k0 = k
    · subst h0
      have hn : (k0, v) ∉ m := fun hm => h.1 (List.mem_map.2 ⟨(k0, v), hm, rfl⟩)
      simp only [GoMap.get, if_true, Option.some.injEq, List.mem_cons, Prod.mk.injEq, true_and]
      constructor
      · intro hv
        exact Or.inl hv.symm
      · rintro (hv | hv)
        · exact hv.symm
        · exact absurd hv hn
    · have h1 : ¬ k = k0 := fun h3 => h0 h3.symm
      simp [GoMap.get, h0, h1, ih h.2]

theorem GoMap.get_isSome_iff (m : GoMap) (k : Str) :
    (GoMap.get m k).isSome ↔ k ∈ GoMap.keys m := by
  induction m with
  | nil => simp [GoMap.get, GoMap.keys]
  | cons e m ih =>
    obtain ⟨k0, v0⟩ := e
    simp only [GoMap.keys] at ih
    by_cases h0 : k0 = k
    · subst h0
      simp [GoMap.get, GoMap.keys]
    · have h1 : ¬ k = k0 := fun h3 => h0 h3.symm
      simp [GoMap.get, GoMap.keys, h0, h1, ih]

theorem GoMap.get_perm (m order : GoMap) (h : (GoMap.keys m).Nodup) (hp : order.Perm m)
    (k : Str) : GoMap.get order k = GoMap.get m k := by
  have ho : (GoMap.keys order).Nodup := ((hp.map Prod.fst).nodup_iff).2 h
  cases hg : GoMap.get m k with
  | some v =>
    exact (GoMap.get_eq_some_iff order ho k v).2
      (hp.mem_iff.2 ((GoMap.get_eq_some_iff m h k v).1 hg))
  | none =>
    cases hg1 : GoMap.get order k with
    | none => rfl
    | some v =>
      have := (GoMap.get_eq_some_iff m h k v).2
        (hp.mem_iff.1 ((GoMap.get_eq_some_iff order ho k v).1 hg1))
      rw [hg] at this
      exact absurd this (by simp)

/-- The entries of a map with unique keys that have a given key. -/
theorem GoMap.filter_key (m : GoMap) (h : (GoMap.keys m).Nodup) (k v : Str)
    (hg : GoMap.get m k = some v) :
    m.filter (fun e => decide (e.1 = k)) = [(k, v)] := by
  induction m with
  | nil => simp [GoMap.get] at hg
  | cons e m ih =>
    obtain ⟨k0, v0⟩ := e
    simp only [GoMap.keys, List.map_cons, List.nodup_cons] at h
    by_cases h0 : k0 = k
    · subst h0
      simp only [GoMap.get, if_true, Option.some.injEq] at hg
      subst hg
      have hn : m.filter (fun e => decide (e.1 = k0)) = [] := by
        rw [List.filter_eq_nil_iff]
        intro e he hk
        simp only [decide_eq_true_eq] at hk
        exact h.1 (List.mem_map.2 ⟨e, he, hk⟩)
      simp [List.filter_cons, hn]
    · simp only [GoMap.get, h0, if_false] at hg
      simp [List.filter_cons, h0, ih h.2 hg]

/-! ## Lemmas: the Scanner -/

theorem scanLines_of_short (ls : List Str) (h : ∀ l ∈ ls, byteLen l < maxScanTokenSize) :
    scanLines ls = (ls.map dropCR, none) := by
  induction ls with
  | nil => rfl
  | cons l ls ih =>
    have h1 : byteLen l < maxScanTokenSize := h l (List.mem_cons_self l ls)
    have h2 := ih (fun x hx => h x (List.mem_cons_of_mem l hx))
    simp [scanLines, h1, h2]

theorem scanLines_err (ls : List Str) : (scanLines ls).2 = none ∨
    (scanLines ls).2 = some IOError.tooLong := by
  induction ls with
  | nil => exact Or.inl rfl
  | cons l ls ih =>
    by_cases h1 : byteLen l < maxScanTokenSize
    · simpa [scanLines, h1] using ih
    · simp [scanLines, h1]

theorem scanLines_none_iff (ls : List Str) :
    (scanLines ls).2 = none ↔ ∀ l ∈ ls, byteLen l < maxScanTokenSize := by
  induction ls with
  | nil => simp [scanLines]
  | cons l ls ih =>
    by_cases h1 : byteLen l < maxScanTokenSize
    · simp [scanLines, h1, ih]
    · simp [scanLines, h1]

theorem scanLines_too_long (ls : List Str) (l : Str) (hl : l ∈ ls)
    (h : maxScanTokenSize ≤ byteLen l) : (scanLines ls).2 = some IOError.tooLong := by
  rcases scanLines_err ls with h0 | h0
  · exact absurd ((scanLines_none_iff ls).1 h0 l hl) (Nat.not_lt.2 h)
  · exact h0

theorem readConfig_of_short (text : List Char)
    (h : ∀ l ∈ rawLines text, byteLen l < maxScanTokenSize) :
    readConfig (some text) = Except.ok ((fileLines text).foldl configStep []) := by
  simp [readConfig, scanLines_of_short _ h, fileLines]

theorem readReceivers_of_short (text : List Char)
    (h : ∀ l ∈ rawLines text, byteLen l < maxScanTokenSize) :
    readReceivers (some text) = Except.ok ((fileLines text).foldl receiverStep []) := by
  simp [readReceivers, scanLines_of_short _ h, fileLines]

theorem readConfig_ok (text : List Char) (m : GoMap)
    (h : readConfig (some text) = Except.ok m) :
    (∀ l ∈ rawLines text, byteLen l < maxScanTokenSize) ∧
      m = (fileLines text).foldl configStep [] := by
  have hs : (scanLines (rawLines text)).2 = none := by
    rcases scanLines_err (rawLines text) with h0 | h0
    · exact h0
    · simp only [readConfig] at h
      split at h
      · rename_i heq
        rw [heq] at h0
        simp at h0
      · simp at h
  have hshort := (scanLines_none_iff _).1 hs
  refine ⟨hshort, ?_⟩
  rw [readConfig_of_short text hshort] at h
  exact (Except.ok.inj h).symm

theorem readReceivers_too_long (text : List Char) (l : Str) (hl : l ∈ rawLines text)
    (h : maxScanTokenSize ≤ byteLen l) :
    readReceivers (some text) = Except.error IOError.tooLong := by
  have h0 := scanLines_too_long _ l hl h
  simp only [readReceivers]
  split
  · rename_i heq
    rw [heq] at h0
    simp at h0
  · rename_i heq
    rw [heq] at h0
    simp only [Option.some.injEq] at h0
    rw [h0]

theorem readConfig_too_long (text : List Char) (l : Str) (hl : l ∈ rawLines text)
    (h : maxScanTokenSize ≤ byteLen l) :
    readConfig (some text) = Except.error IOError.tooLong := by
  have h0 := scanLines_too_long _ l hl h
  simp only [readConfig]
  split
  · rename_i heq
    rw [heq] at h0
    simp at h0
  · rename_i heq
    rw [heq] at h0
    simp only [Option.some.injEq] at h0
    rw [h0]

theorem rawLines_append_newline (l : Str) (rest : List Char) (h : '\n' ∉ l) :
    rawLines (l ++ '\n' :: rest) = l :: rawLines rest := by
  induction l with
  | nil => simp [rawLines]
  | cons c l ih =>
    simp only [List.mem_cons, not_or] at h
    have hc : ¬ c = '\n' := fun h3 => h.1 h3.symm
    simp [rawLines, hc, ih h.2]

theorem byteLen_append (a b : Str) : byteLen (a ++ b) = byteLen a + byteLen b := by
  simp [byteLen]

theorem byteLen_cons (c : Char) (b : Str) : byteLen (c :: b) = c.utf8Size + byteLen b := by
  simp [byteLen]

theorem byteLen_replicate (n : Nat) (c : Char) :
    byteLen (List.replicate n c) = n * c.utf8Size := by
  simp [byteLen]

/-! ## Lemmas: the lines of a written config -/

theorem cut_line (k v : Str) (h : '=' ∉ k) : cut '=' (k ++ '=' :: v) = some (k, v) := by
  induction k with
  | nil => simp [cut]
  | cons c k ih =>
    simp only [List.mem_cons, not_or] at h
    have hc : ¬ c = '=' := fun h3 => h.1 h3.symm
    simp [cut, hc, ih h.2]

theorem cut_eq_some (l k v : Str) (h : cut '=' l = some (k, v)) :
    l = k ++ '=' :: v ∧ '=' ∉ k := by
  induction l generalizing k with
  | nil => simp [cut] at h
  | cons c l ih =>
    by_cases hc : c = '='
    · simp only [cut, hc, if_true, Option.some.injEq, Prod.mk.injEq] at h
      obtain ⟨h1, h2⟩ := h
      subst h1
      subst h2
      simp [hc]
    · simp only [cut, hc, if_false] at h
      cases hr : cut '=' l with
      | none => simp [hr] at h
      | some p =>
        obtain ⟨a, b⟩ := p
        simp only [hr, Option.some.injEq, Prod.mk.injEq] at h
        obtain ⟨h1, h2⟩ := h
        subst h1
        subst h2
        obtain ⟨e1, e2⟩ := ih a hr
        refine ⟨by rw [e1]; rfl, ?_⟩
        simp only [List.mem_cons, not_or]
        exact ⟨fun h3 => hc h3.symm, e2⟩

theorem getLast?_line (k v : Str) :
    (k ++ '=' :: v).getLast? = if v = [] then some '=' else v.getLast? := by
  cases v with
  | nil => simp
  | cons c v =>
    have : k ++ '=' :: c :: v = (k ++ ['=']) ++ (c :: v) := by simp
    rw [this, List.getLast?_append_of_ne_nil _ (by simp)]
    simp

theorem dropCR_line (k v : Str) (h : v.getLast? ≠ some '\r') :
    dropCR (k ++ '=' :: v) = k ++ '=' :: v := by
  unfold dropCR
  rw [getLast?_line]
  by_cases hv : v = []
  · simp [hv]
  · simp [hv, h]

theorem rawLines_writeConfig (order : GoMap) (h : ∀ e ∈ order, '\n' ∉ e.1 ∧ '\n' ∉ e.2) :
    rawLines (writeConfig order) = order.map (fun e => e.1 ++ '=' :: e.2) := by
  induction order with
  | nil => rfl
  | cons e order ih =>
    obtain ⟨k, v⟩ := e
    have he := h (k, v) (List.mem_cons_self _ _)
    have hl : '\n' ∉ k ++ '=' :: v := by
      simp only [List.mem_append, List.mem_cons, not_or]
      exact ⟨he.1, by decide, he.2⟩
    have ih1 := ih (fun x hx => h x (List.mem_cons_of_mem _ hx))
    have : writeConfig ((k, v) :: order) = (k ++ '=' :: v) ++ '\n' :: writeConfig order := by
      simp [writeConfig]
    rw [this, rawLines_append_newline _ _ hl, ih1]
    rfl

theorem configStep_line (m : GoMap) (k v : Str) (h : '=' ∉ k) :
    configStep m (k ++ '=' :: v) = GoMap.assign m k v := by
  simp [configStep, splitN2, cut_line k v h]

theorem foldl_configStep_lines (order m0 : GoMap) (hk : ∀ e ∈ order, '=' ∉ e.1)
    (hn : (GoMap.keys (m0 ++ order)).Nodup) :
    (order.map (fun e => e.1 ++ '=' :: e.2)).foldl configStep m0 = m0 ++ order := by
  induction order generalizing m0 with
  | nil => simp
  | cons e order ih =>
    obtain ⟨k, v⟩ := e
    have hnot : k ∉ GoMap.keys m0 := by
      simp only [GoMap.keys, List.map_append, List.map_cons] at hn
      have := (List.nodup_append.1 hn).2.2
      intro hm
      exact this hm (List.mem_cons_self _ _)
    have hstep : configStep m0 (k ++ '=' :: v) = m0 ++ [(k, v)] := by
      rw [configStep_line m0 k v (hk (k, v) (List.mem_cons_self _ _)),
        GoMap.assign_of_not_mem m0 k v hnot]
    simp only [List.map_cons, List.foldl_cons, hstep]
    rw [ih (m0 ++ [(k, v)]) (fun x hx => hk x (List.mem_cons_of_mem _ hx))
      (by simpa using hn)]
    simp

/-! ## Lemmas: a loop of assignments -/

theorem configStep_eq (m : GoMap) (l : Str) : configStep m l = applyEntry m (cut '=' l) := by
  unfold configStep splitN2 applyEntry
  cases h : cut '=' l with
  | none => simp
  | some p => obtain ⟨a, b⟩ := p; simp

theorem receiverStep_eq (m : GoMap) (l : Str) : receiverStep m l = applyEntry m (lineEntry l) := by
  unfold receiverStep lineEntry applyEntry
  split <;> simp

theorem foldl_configStep_eq (ls : List Str) (m : GoMap) :
    ls.foldl configStep m = (ls.map (cut '=')).foldl applyEntry m := by
  rw [List.foldl_map]
  congr 1
  funext a b
  exact configStep_eq a b

theorem foldl_receiverStep_eq (ls : List Str) (m : GoMap) :
    ls.foldl receiverStep m = (ls.map lineEntry).foldl applyEntry m := by
  rw [List.foldl_map]
  congr 1
  funext a b
  exact receiverStep_eq a b

theorem get_applyEntry (m : GoMap) (o : Option (Str × Str)) (k : Str) :
    GoMap.get (applyEntry m o) k =
      match o with
      | some (a, b) => if a = k then some b else GoMap.get m k
      | none => GoMap.get m k := by
  cases o with
  | none => rfl
  | some p => obtain ⟨a, b⟩ := p; simp [applyEntry, GoMap.get_assign]

theorem get_foldl_some (os : List (Option (Str × Str))) (m : GoMap) (k v : Str)
    (h : GoMap.get (os.foldl applyEntry m) k = some v) :
    GoMap.get m k = some v ∨ some (k, v) ∈ os := by
  induction os generalizing m with
  | nil => exact Or.inl h
  | cons o os ih =>
    rcases ih (applyEntry m o) h with h1 | h1
    · rw [get_applyEntry] at h1
      cases o with
      | none => exact Or.inl h1
      | some p =>
        obtain ⟨a, b⟩ := p
        by_cases hk : a = k
        · simp only [hk, if_true, Option.some.injEq] at h1
          subst hk
          subst h1
          exact Or.inr (List.mem_cons_self _ _)
        · simp only [hk, if_false] at h1
          exact Or.inl h1
    · exact Or.inr (List.mem_cons_of_mem _ h1)

theorem get_foldl_of_no_key (os : List (Option (Str × Str))) (m : GoMap) (k : Str)
    (h : ∀ v, some (k, v) ∉ os) :
    GoMap.get (os.foldl applyEntry m) k = GoMap.get m k := by
  induction os generalizing m with
  | nil => rfl
  | cons o os ih =>
    simp only [List.foldl_cons]
    rw [ih (applyEntry m o) (fun v hv => h v (List.mem_cons_of_mem _ hv)), get_applyEntry]
    cases o with
    | none => rfl
    | some p =>
      obtain ⟨a, b⟩ := p
      by_cases hk : a = k
      · subst hk
        exact absurd (List.mem_cons_self _ _) (h b)
      · simp [hk]

/-- The last assignment to a key decides its value. -/
theorem get_foldl_last (pre post : List (Option (Str × Str))) (m : GoMap) (k v : Str)
    (h : ∀ v1, some (k, v1) ∉ post) :
    GoMap.get ((pre ++ some (k, v) :: post).foldl applyEntry m) k = some v := by
  rw [List.foldl_append, List.foldl_cons, get_foldl_of_no_key post _ k h, get_applyEntry]
  simp

theorem get_foldl_isSome (os : List (Option (Str × Str))) (m : GoMap) (k : Str) :
    (GoMap.get (os.foldl applyEntry m) k).isSome ↔
      ((GoMap.get m k).isSome ∨ ∃ v, some (k, v) ∈ os) := by
  induction os generalizing m with
  | nil => simp
  | cons o os ih =>
    simp only [List.foldl_cons]
    rw [ih (applyEntry m o), get_applyEntry]
    cases o with
    | none => simp
    | some p =>
      obtain ⟨a, b⟩ := p
      by_cases hk : a = k
      · subst hk
        simp
      · have hk1 : ¬ k = a := fun h3 => hk h3.symm
        simp [hk, hk1]

theorem keys_foldl_nodup (os : List (Option (Str × Str))) (m : GoMap)
    (h : (GoMap.keys m).Nodup) : (GoMap.keys (os.foldl applyEntry m)).Nodup := by
  induction os generalizing m with
  | nil => exact h
  | cons o os ih =>
    apply ih
    cases o with
    | none => exact h
    | some p => obtain ⟨a, b⟩ := p; exact GoMap.keys_assign_nodup m a b h

theorem foldl_applyEntry_filterMap (os : List (Option (Str × Str))) (m : GoMap) :
    os.foldl applyEntry m =
      (os.filterMap id).foldl (fun acc e => GoMap.assign acc e.1 e.2) m := by
  induction os generalizing m with
  | nil => rfl
  | cons o os ih =>
    cases o with
    | none => simpa [applyEntry] using ih m
    | some p => obtain ⟨a, b⟩ := p; simpa [applyEntry] using ih (GoMap.assign m a b)

/-! ## Lemmas: the batch -/

section BatchLemmas

variable {σ Addr Coins Cell : Type}

theorem messageStep_eq (w : World σ Addr Coins Cell) (comment : Cell)
    (messages : List (Message Addr Coins Cell)) (entry : Str × Str) :
    messageStep w comment messages entry
      = messages ++ (entryMessage w comment entry).toList := by
  unfold messageStep entryMessage
  cases w.parseAddr entry.1 with
  | none => simp
  | some a =>
    cases w.fromTON entry.2 with
    | none => simp
    | some c => simp

theorem foldl_messageStep (w : World σ Addr Coins Cell) (comment : Cell)
    (order : List (Str × Str)) (acc : List (Message Addr Coins Cell)) :
    order.foldl (messageStep w comment) acc
      = acc ++ order.filterMap (entryMessage w comment) := by
  induction order generalizing acc with
  | nil => simp
  | cons e order ih =>
    rw [List.foldl_cons, ih, messageStep_eq]
    cases h : entryMessage w comment e with
    | none => simp [List.filterMap_cons, h]
    | some msg => simp [List.filterMap_cons, h]

theorem buildMessages_eq (w : World σ Addr Coins Cell) (comment : Cell)
    (order : List (Str × Str)) :
    buildMessages w comment order = order.filterMap (entryMessage w comment) := by
  unfold buildMessages
  rw [foldl_messageStep]
  simp

theorem entryMessage_isSome (w : World σ Addr Coins Cell) (comment : Cell) (e : Str × Str) :
    (entryMessage w comment e).isSome ↔
      ((w.parseAddr e.1).isSome ∧ (w.fromTON e.2).isSome) := by
  unfold entryMessage
  cases w.parseAddr e.1 with
  | none => simp
  | some a =>
    cases w.fromTON e.2 with
    | none => simp
    | some c => simp

theorem length_filterMap_of_isSome {α β : Type} (f : α → Option β) (l : List α)
    (h : ∀ x ∈ l, (f x).isSome) : (l.filterMap f).length = l.length := by
  induction l with
  | nil => rfl
  | cons x l ih =>
    have hx := h x (List.mem_cons_self _ _)
    obtain ⟨y, hy⟩ := Option.isSome_iff_exists.1 hx
    rw [List.filterMap_cons, hy]
    simp [ih (fun z hz => h z (List.mem_cons_of_mem _ hz))]

end BatchLemmas

theorem foldl_assign_nodup (es m0 : GoMap) (hn : (GoMap.keys (m0 ++ es)).Nodup) :
    es.foldl (fun acc e => GoMap.assign acc e.1 e.2) m0 = m0 ++ es := by
  induction es generalizing m0 with
  | nil => simp
  | cons e es ih =>
    obtain ⟨k, v⟩ := e
    have hnot : k ∉ GoMap.keys m0 := by
      simp only [GoMap.keys, List.map_append, List.map_cons] at hn
      have := (List.nodup_append.1 hn).2.2
      intro hm
      exact this hm (List.mem_cons_self _ _)
    simp only [List.foldl_cons]
    rw [GoMap.assign_of_not_mem m0 k v hnot,
      ih (m0 ++ [(k, v)]) (by simpa using hn)]
    simp

theorem foldl_receiverStep_filter (ls : List Str) (m : GoMap) :
    ls.foldl receiverStep m
      = (ls.filter (fun l => decide ((fields l).length = 2))).foldl receiverStep m := by
  induction ls generalizing m with
  | nil => rfl
  | cons l ls ih =>
    by_cases h : (fields l).length = 2
    · simp only [List.filter_cons, h, decide_True, if_true, List.foldl_cons]
      exact ih _
    · have hstep : receiverStep m l = m := by
        unfold receiverStep
        split
        · rename_i a b heq
          rw [heq] at h
          simp at h
        · rfl
      simp only [List.filter_cons, h, decide_False, List.foldl_cons, hstep]
      exact ih _

theorem lineEntry_eq_some (l d a : Str) : lineEntry l = some (d, a) ↔ fields l = [d, a] := by
  unfold lineEntry
  split
  · rename_i x y heq
    rw [heq]
    simp
  · rename_i hne
    constructor
    · intro h; simp at h
    · intro h; exact absurd h (hne d a)

theorem fieldsFrom_spaces (n : Nat) (rest : List Char) :
    fieldsFrom [] (List.replicate n ' ' ++ rest) = fieldsFrom [] rest := by
  induction n with
  | zero => rfl
  | succ n ih =>
    have hsp : isSpace ' ' = true := by decide
    rw [List.replicate_succ, List.cons_append, fieldsFrom, hsp]
    simpa using ih

/-- A field "A" followed by white space of any length. -/
theorem fields_padded (n : Nat) (h : 0 < n) (rest : List Char) :
    fields ('A' :: List.replicate n ' ' ++ rest) = ['A'] :: fieldsFrom [] rest := by
  cases n with
  | zero => exact absurd h (by decide)
  | succ n =>
    have hsp : isSpace ' ' = true := by decide
    have hA : isSpace 'A' = false := by decide
    rw [List.replicate_succ]
    simp only [fields, fieldsFrom, hA, hsp, List.cons_append, List.nil_append]
    simp only [Bool.false_eq_true, if_false, if_true, List.cons_ne_nil]
    exact congrArg _ (fieldsFrom_spaces n rest)

/-! ## Lemmas: the loop over the files -/

section CycleLemmas

variable {σ Addr Coins Cell : Type}

theorem processFile_run (w : World σ Addr Coins Cell) (balance : Nat) (commentText : Str)
    (file : Str) (s : σ) :
    FileRun balance file (processFile w balance commentText file s).1
      (processFile w balance commentText file s).2.1 := by
  unfold processFile
  simp only []
  split
  · exact FileRun.readFailed
  · split
    · rename_i hb
      exact FileRun.gated hb
    · rename_i hb
      split
      · exact FileRun.commentFailed hb
      · split
        · exact FileRun.submitFailed hb _
        · exact FileRun.submitted hb _ _ _

theorem processFiles_run (w : World σ Addr Coins Cell) (balance : Nat) (commentText : Str)
    (files : List Str) (s : σ) :
    FilesRun balance files (processFiles w balance commentText files s).1 := by
  induction files generalizing s with
  | nil => exact FilesRun.nil
  | cons file rest ih =>
    have h := processFile_run w balance commentText file s
    unfold processFiles
    by_cases hc : (processFile w balance commentText file s).2.1 = true
    · simp only [hc, if_true]
      rw [hc] at h
      exact FilesRun.next file rest _ _ h (ih _)
    · simp only [hc, if_false]
      have hf : (processFile w balance commentText file s).2.1 = false := by
        simpa using hc
      rw [hf] at h
      exact FilesRun.stop file rest _ h

theorem FileRun.file_eq {balance : Nat} {file : Str} {ev : List (Event Addr Coins Cell)}
    {c : Bool} (h : FileRun balance file ev c) : ∀ e ∈ ev, e.file = some file := by
  cases h <;> simp [Event.file]

theorem FilesRun.file_mem {balance : Nat} {files : List Str}
    {ev : List (Event Addr Coins Cell)} (h : FilesRun balance files ev) :
    ∀ e ∈ ev, ∃ f ∈ files, e.file = some f := by
  induction h with
  | nil => simp
  | stop file rest ev h =>
    intro e he
    exact ⟨file, List.mem_cons_self _ _, h.file_eq e he⟩
  | next file rest ev evs h hrest ih =>
    intro e he
    rcases List.mem_append.1 he with h1 | h1
    · exact ⟨file, List.mem_cons_self _ _, h.file_eq e h1⟩
    · obtain ⟨f, hf, hef⟩ := ih e h1
      exact ⟨f, List.mem_cons_of_mem _ hf, hef⟩

theorem FilesRun.no_balance {balance : Nat} {files : List Str}
    {ev : List (Event Addr Coins Cell)} (h : FilesRun balance files ev) (b : Nat) :
    Event.balance b ∉ ev := by
  intro hm
  obtain ⟨f, _, hf⟩ := h.file_mem _ hm
  simp [Event.file] at hf

theorem FilesRun.no_glob {balance : Nat} {files : List Str}
    {ev : List (Event Addr Coins Cell)} (h : FilesRun balance files ev) (fs : List Str) :
    Event.glob fs ∉ ev := by
  intro hm
  obtain ⟨f, _, hf⟩ := h.file_mem _ hm
  simp [Event.file] at hf

/-- Below the minimum balance the loop over the files submits nothing and renames nothing. -/
theorem FilesRun.low_balance {balance : Nat} {files : List Str}
    {ev : List (Event Addr Coins Cell)} (h : FilesRun balance files ev)
    (hb : comparedBalance balance < minBalance) :
    submitted ev = [] ∧ renameCalls ev = [] := by
  induction h with
  | nil => exact ⟨rfl, rfl⟩
  | stop file rest ev h =>
    cases h
    exact ⟨rfl, rfl⟩
  | next file rest ev evs h hrest ih =>
    cases h with
    | readFailed =>
      simp only [submitted, renameCalls] at ih ⊢
      simpa using ih
    | commentFailed h1 => exact absurd hb h1
    | submitFailed h1 => exact absurd hb h1
    | submitted h1 => exact absurd hb h1

/-- A rename follows a submit of the same file that returned a hash. -/
theorem FilesRun.rename_submit {balance : Nat} {files : List Str}
    {ev : List (Event Addr Coins Cell)} (h : FilesRun balance files ev)
    (f new : Str) (ok : Bool) (hr : Event.rename f new ok ∈ ev) :
    ∃ messages txHash, Event.submit f messages (some txHash) ∈ ev ∧
      new = newFilePath f txHash := by
  induction h with
  | nil => exact absurd hr (List.not_mem_nil _)
  | stop file rest ev h =>
    cases h
    simp at hr
  | next file rest ev evs h hrest ih =>
    rcases List.mem_append.1 hr with h1 | h1
    · cases h with
      | readFailed => simp at h1
      | commentFailed hb => simp at h1
      | submitFailed hb m => simp at h1
      | submitted hb m t ok1 =>
        simp only [List.mem_cons, Event.rename.injEq, List.mem_singleton, true_and,
          List.not_mem_nil, or_false] at h1
        simp only [reduceCtorEq, false_or] at h1
        obtain ⟨hf, hnew, _⟩ := h1
        subst hf
        exact ⟨m, t, List.mem_append_left _ (by simp), hnew⟩
    · obtain ⟨m, t, hs, hnew⟩ := ih h1
      exact ⟨m, t, List.mem_append_right _ hs, hnew⟩

/-- A file that is renamed was submitted with success, and none of its calls failed. -/
theorem FilesRun.rename_mem {balance : Nat} {files : List Str}
    {ev : List (Event Addr Coins Cell)} (h : FilesRun balance files ev)
    (hn : files.Nodup) (f new : Str) (ok : Bool) (hr : Event.rename f new ok ∈ ev) :
    (∃ messages txHash, Event.submit f messages (some txHash) ∈ ev ∧
      new = newFilePath f txHash) ∧
    Event.read f false ∉ ev ∧ Event.commentCell f false ∉ ev ∧
    ∀ messages, Event.submit f messages none ∉ ev := by
  induction h with
  | nil => exact absurd hr (List.not_mem_nil _)
  | stop file rest ev h =>
    cases h
    simp at hr
  | next file rest ev evs h hrest ih =>
    have hnot : file ∉ rest := (List.nodup_cons.1 hn).1
    have hrestfile : ∀ e ∈ evs, e.file ≠ some file := by
      intro e he hfile
      obtain ⟨g, hg, hge⟩ := hrest.file_mem e he
      rw [hfile] at hge
      exact hnot (by rw [Option.some.inj hge]; exact hg)
    rcases List.mem_append.1 hr with h1 | h1
    · have hf : f = file := by
        have := h.file_eq _ h1
        simpa [Event.file] using this
      subst hf
      have hno : ∀ e : Event Addr Coins Cell, e.file = some f → e ∈ ev ++ evs → e ∈ ev := by
        intro e hef hmem
        rcases List.mem_append.1 hmem with h2 | h2
        · exact h2
        · exact absurd hef (hrestfile e h2)
      cases h with
      | readFailed => simp at h1
      | commentFailed hb => simp at h1
      | submitFailed hb m => simp at h1
      | submitted hb m t ok1 =>
        simp only [List.mem_cons, Event.rename.injEq, List.mem_singleton, true_and,
          List.not_mem_nil, or_false] at h1
        simp only [reduceCtorEq, false_or] at h1
        refine ⟨⟨m, t, List.mem_append_left _ (by simp), h1.1⟩, ?_, ?_, ?_⟩
        · intro hm
          have := hno (Event.read f false) rfl hm
          simp at this
        · intro hm
          have := hno (Event.commentCell f false) rfl hm
          simp at this
        · intro m1 hm
          have := hno (Event.submit f m1 none) rfl hm
          simp at this
    · have hih := ih (List.nodup_cons.1 hn).2 h1
      have hf : f ≠ file := by
        intro hf
        exact hrestfile _ h1 (by rw [hf]; rfl)
      have hev : ∀ e : Event Addr Coins Cell, e.file = some f → e ∈ ev ++ evs → e ∈ evs := by
        intro e hef hmem
        rcases List.mem_append.1 hmem with h2 | h2
        · have := h.file_eq e h2
          rw [hef] at this
          exact absurd (Option.some.inj this) hf
        · exact h2
      obtain ⟨⟨m, t, hs, hnew⟩, h3, h4, h5⟩ := hih
      exact ⟨⟨m, t, List.mem_append_right _ hs, hnew⟩,
        fun hm => h3 (hev (Event.read f false) rfl hm),
        fun hm => h4 (hev (Event.commentCell f false) rfl hm),
        fun m1 hm => h5 m1 (hev (Event.submit f m1 none) rfl hm)⟩

/-- With enough balance and a comment payload, the submits of the loop over the files are
the ones owed. -/
theorem submitCalls_processFiles (w : World σ Addr Coins Cell) (balance : Nat)
    (commentText : Str) (comment : Cell)
    (hb : ¬ comparedBalance balance < minBalance)
    (hc : w.createCommentCell commentText = some comment) (files : List Str) (s : σ) :
    submitCalls (processFiles w balance commentText files s).1
      = expectedSubmits w comment files s := by
  induction files generalizing s with
  | nil => rfl
  | cons file rest ih =>
    unfold processFiles expectedSubmits processFile
    simp only [hb, hc, if_false]
    cases hr : readReceivers (w.readFile file s).1 with
    | error e =>
      simp only [if_true]
      rw [← ih]
      simp [submitCalls]
    | ok receivers =>
      simp only []
      cases ht : (w.sendManyWaitTxHash
          (buildMessages w comment (w.rangeOrder receivers (w.readFile file s).2).1)
          (w.rangeOrder receivers (w.readFile file s).2).2).1 with
      | none =>
        simp only [if_true]
        rw [← ih]
        simp [submitCalls]
      | some txHash =>
        simp only [if_true]
        rw [← ih]
        simp [submitCalls]

theorem FilesRun.readCalls_eq {balance : Nat} {files : List Str}
    {ev : List (Event Addr Coins Cell)} (h : FilesRun balance files ev)
    (hb : ¬ comparedBalance balance < minBalance) : readCalls ev = files := by
  induction h with
  | nil => rfl
  | stop file rest ev h =>
    cases h with
    | gated h1 => exact absurd h1 hb
  | next file rest ev evs h hrest ih =>
    cases h with
    | readFailed =>
      simp only [readCalls] at ih ⊢
      simp [ih]
    | commentFailed h1 =>
      simp only [readCalls] at ih ⊢
      simp [ih]
    | submitFailed h1 m =>
      simp only [readCalls] at ih ⊢
      simp [ih]
    | submitted h1 m t ok =>
      simp only [readCalls] at ih ⊢
      simp [ih]

/-- With enough balance and a comment payload, the files logged as read without error are
the files of the submits owed. -/
theorem readable_processFiles (w : World σ Addr Coins Cell) (balance : Nat)
    (commentText : Str) (comment : Cell)
    (hb : ¬ comparedBalance balance < minBalance)
    (hc : w.createCommentCell commentText = some comment) (files : List Str) (s : σ) :
    readable (processFiles w balance commentText files s).1
      = (expectedSubmits w comment files s).map Prod.fst := by
  induction files generalizing s with
  | nil => rfl
  | cons file rest ih =>
    unfold processFiles expectedSubmits processFile
    simp only [hb, hc, if_false]
    cases hr : readReceivers (w.readFile file s).1 with
    | error e =>
      simp only [if_true]
      rw [← ih]
      simp [readable]
    | ok receivers =>
      simp only []
      cases ht : (w.sendManyWaitTxHash
          (buildMessages w comment (w.rangeOrder receivers (w.readFile file s).2).1)
          (w.rangeOrder receivers (w.readFile file s).2).2).1 with
      | none =>
        simp only [if_true]
        rw [List.map_cons, ← ih]
        simp [readable]
      | some txHash =>
        simp only [if_true]
        rw [List.map_cons, ← ih]
        simp [readable]

theorem submitted_eq_map (ev : List (Event Addr Coins Cell)) :
    submitted ev = (submitCalls ev).map Prod.fst := by
  induction ev with
  | nil => rfl
  | cons e ev ih =>
    simp only [submitted, submitCalls] at ih ⊢
    cases e <;> simp [List.filterMap_cons, ih]

/-- A cycle that reaches the loop over the files makes the calls of that loop. -/
theorem autoSendCycle_of_loopInputs (w : World σ Addr Coins Cell) (s : σ) (b : Nat)
    (text : Str) (files : List Str) (s1 : σ)
    (h : loopInputs w s = some (b, text, files, s1)) :
    (autoSendCycle w s).1
      = Event.balance b :: Event.glob files :: (processFiles w b text files s1).1 := by
  unfold loopInputs at h
  unfold autoSendCycle
  simp only [] at h ⊢
  split at h
  · exact absurd h (by simp)
  · split at h
    · exact absurd h (by simp)
    · rename_i ha
      rw [if_neg ha]
      split at h
      · exact absurd h (by simp)
      · rename_i hf
        rw [if_neg hf]
        split at h
        · exact absurd h (by simp)
        · rename_i hm
          rw [if_neg hm]
          split at h
          · exact absurd h (by simp)
          · split at h
            · exact absurd h (by simp)
            · rename_i files0 hfiles
              simp only [Option.some.injEq, Prod.mk.injEq] at h
              obtain ⟨h1, h2, h3, h4⟩ := h
              subst h1 h2 h3 h4
              split
              · rename_i hlen
                have hnil : files0 = [] := List.length_eq_zero.1 hlen
                subst hnil
                rfl
              · rfl

/-- The calls of a cycle: none of the loop over the files, or the balance, the files found
and the calls of the loop over them. -/
theorem autoSendCycle_run (w : World σ Addr Coins Cell) (s : σ) :
    (autoSendCycle w s).1 = [] ∨
    (∃ balance, (autoSendCycle w s).1 = [Event.balance balance]) ∨
    (∃ balance, (autoSendCycle w s).1 = [Event.balance balance, Event.glob []]) ∨
    (∃ balance files ev, FilesRun balance files ev ∧
      (autoSendCycle w s).1 = Event.balance balance :: Event.glob files :: ev) := by
  unfold autoSendCycle
  simp only []
  split
  · exact Or.inl rfl
  · split
    · exact Or.inl rfl
    · split
      · exact Or.inl rfl
      · split
        · exact Or.inl rfl
        · split
          · exact Or.inl rfl
          · split
            · exact Or.inr (Or.inl ⟨_, rfl⟩)
            · rename_i files hfiles
              split
              · rename_i hlen
                have hnil : files = [] := List.length_eq_zero.1 hlen
                subst hnil
                exact Or.inr (Or.inr (Or.inl ⟨_, rfl⟩))
              · exact Or.inr (Or.inr (Or.inr ⟨_, _, _, processFiles_run w _ _ _ _, rfl⟩))

end CycleLemmas

/-! ## The config store -/

theorem fileLines_writeConfig (order : GoMap)
    (h : ∀ e ∈ order, '\n' ∉ e.1 ∧ '\n' ∉ e.2 ∧ e.2.getLast? ≠ some '\r') :
    fileLines (writeConfig order) = order.map (fun e => e.1 ++ '=' :: e.2) := by
  rw [fileLines, rawLines_writeConfig order (fun e he => ⟨(h e he).1, (h e he).2.1⟩),
    List.map_map]
  apply List.map_congr_left
  intro e he
  exact dropCR_line e.1 e.2 (h e he).2.2

theorem readConfig_long_line (v : Str) (hnl : '\n' ∉ v) (hlen : 65534 ≤ byteLen v) :
    readConfig (some (writeConfig [(['k'], v)])) = Except.error IOError.tooLong := by
  have hraw := rawLines_writeConfig [(['k'], v)]
    (by
      intro e he
      simp only [List.mem_singleton] at he
      subst he
      exact ⟨(by decide : '\n' ∉ ['k']), hnl⟩)
  apply readConfig_too_long _ ('k' :: '=' :: v)
  · rw [hraw]
    exact List.mem_singleton.2 rfl
  · have h1 : Char.utf8Size 'k' = 1 := by decide
    have h2 : Char.utf8Size '=' = 1 := by decide
    rw [byteLen_cons, byteLen_cons, h1, h2]
    simp only [maxScanTokenSize]
    omega

/-- C10 (amended): the config store round trip.  For every config mapping in which no key
contains "=" or a line feed, no value contains a line feed or ends with a carriage return,
and every line `key=value` is shorter than 65536 bytes, and for every order in which
`writeConfig` emits the entries, `readConfig` of the written text returns without error a
map with the same value as the original at every key (and the same entries). -/
theorem readConfig_writeConfig_roundtrip (m order : GoMap)
    (hnodup : (GoMap.keys m).Nodup) (hperm : order.Perm m)
    (hkey : ∀ e ∈ m, '=' ∉ e.1 ∧ '\n' ∉ e.1)
    (hval : ∀ e ∈ m, '\n' ∉ e.2 ∧ e.2.getLast? ≠ some '\r')
    (hlen : ∀ e ∈ m, byteLen e.1 + 1 + byteLen e.2 < 65536) :
    ∃ m1, readConfig (some (writeConfig order)) = Except.ok m1 ∧
      (∀ k, GoMap.get m1 k = GoMap.get m k) ∧ m1.Perm m := by
  have hmem : ∀ e ∈ order, e ∈ m := fun e he => hperm.mem_iff.1 he
  have hraw := rawLines_writeConfig order
    (fun e he => ⟨(hkey e (hmem e he)).2, (hval e (hmem e he)).1⟩)
  have hshort : ∀ l ∈ rawLines (writeConfig order), byteLen l < maxScanTokenSize := by
    intro l hl
    rw [hraw] at hl
    obtain ⟨e, he, rfl⟩ := List.mem_map.1 hl
    have h1 := hlen e (hmem e he)
    have h2 : Char.utf8Size '=' = 1 := by decide
    rw [byteLen_append, byteLen_cons, h2]
    simp only [maxScanTokenSize]
    omega
  have hlines := fileLines_writeConfig order
    (fun e he => ⟨(hkey e (hmem e he)).2, (hval e (hmem e he)).1, (hval e (hmem e he)).2⟩)
  have hno : (GoMap.keys ([] ++ order)).Nodup := by
    simpa [GoMap.keys] using ((hperm.map Prod.fst).nodup_iff).2 hnodup
  have hfold := foldl_configStep_lines order [] (fun e he => (hkey e (hmem e he)).1) hno
  refine ⟨order, ?_, fun k => GoMap.get_perm m order hnodup hperm k, hperm⟩
  rw [readConfig_of_short _ hshort, hlines, hfold]
  rfl

/-- C10, witness: a config of two entries written in the other order. -/
theorem readConfig_writeConfig_roundtrip_witness :
    ∃ m1, readConfig (some (writeConfig
        [("comment".toList, "a=b".toList), ("seed".toList, "x y".toList)])) = Except.ok m1 ∧
      (∀ k, GoMap.get m1 k =
        GoMap.get [("seed".toList, "x y".toList), ("comment".toList, "a=b".toList)] k) ∧
      m1.Perm [("seed".toList, "x y".toList), ("comment".toList, "a=b".toList)] :=
  readConfig_writeConfig_roundtrip
    [("seed".toList, "x y".toList), ("comment".toList, "a=b".toList)]
    [("comment".toList, "a=b".toList), ("seed".toList, "x y".toList)]
    (by decide) (List.Perm.swap _ _ _) (by decide) (by decide) (by decide)

/-- C10, counterexample: a config with the one key "k" and a value of 65534 letters "a"
meets every condition of the claim, its line "k=aa...a" has 65536 bytes, and `readConfig`
of the text `writeConfig` writes for it returns the error of the Scanner and no config. -/
theorem readConfig_writeConfig_long_value :
    (∀ e ∈ [(['k'], List.replicate 65534 'a')],
      '=' ∉ e.1 ∧ '\n' ∉ e.1 ∧ '\n' ∉ e.2 ∧ e.2.getLast? ≠ some '\r') ∧
    readConfig (some (writeConfig [(['k'], List.replicate 65534 'a')]))
      = Except.error IOError.tooLong := by
  have hnl : '\n' ∉ List.replicate 65534 'a' := by
    intro h
    exact absurd (List.eq_of_mem_replicate h) (by decide)
  have hcr : (List.replicate 65534 'a').getLast? ≠ some '\r' := by
    intro h
    exact absurd (List.eq_of_mem_replicate (List.mem_of_getLast?_eq_some h)) (by decide)
  refine ⟨?_, ?_⟩
  · intro e he
    simp only [List.mem_singleton] at he
    subst he
    exact ⟨by decide, by decide, hnl, hcr⟩
  · apply readConfig_long_line
    · exact hnl
    · rw [byteLen_replicate]
      decide

/-- C8 (amended): `readConfig` ignores exactly the lines that have no "=".  When it returns
a config, every entry of the config with key `k` and value `v` comes from a line `k=v` of the
file whose first "=" is the one after `k`, and every line with an "=" gives its key an entry,
also when the key before the first "=" or the value after it is empty. -/
theorem readConfig_entries (text : List Char) (m : GoMap)
    (h : readConfig (some text) = Except.ok m) :
    (∀ k v, GoMap.get m k = some v → ∃ l ∈ fileLines text, l = k ++ '=' :: v ∧ '=' ∉ k) ∧
    (∀ l ∈ fileLines text, ∀ k v, l = k ++ '=' :: v → '=' ∉ k → (GoMap.get m k).isSome) := by
  obtain ⟨_, hm⟩ := readConfig_ok text m h
  rw [foldl_configStep_eq] at hm
  subst hm
  constructor
  · intro k v hg
    rcases get_foldl_some _ _ k v hg with h1 | h1
    · simp [GoMap.get] at h1
    · obtain ⟨l, hl, hc⟩ := List.mem_map.1 h1
      exact ⟨l, hl, cut_eq_some l k v hc⟩
  · intro l hl k v he hk
    rw [get_foldl_isSome]
    refine Or.inr ⟨v, List.mem_map.2 ⟨l, hl, ?_⟩⟩
    rw [he]
    exact cut_line k v hk

/-- C8, witness: a file with a line without "=" between two entries. -/
theorem readConfig_entries_witness :
    (∀ k v, GoMap.get [("seed".toList, "x y".toList), ("comment".toList, "hi".toList)] k
        = some v →
      ∃ l ∈ fileLines "seed=x y\nno entry\ncomment=hi\n".toList, l = k ++ '=' :: v ∧ '=' ∉ k) ∧
    (∀ l ∈ fileLines "seed=x y\nno entry\ncomment=hi\n".toList, ∀ k v, l = k ++ '=' :: v →
      '=' ∉ k →
      (GoMap.get [("seed".toList, "x y".toList), ("comment".toList, "hi".toList)] k).isSome) :=
  readConfig_entries "seed=x y\nno entry\ncomment=hi\n".toList
    [("seed".toList, "x y".toList), ("comment".toList, "hi".toList)] (by decide)

/-- C8, counterexample: the line "=v" has an empty key before its first "=" and the line
"k=" an empty value after it, and `readConfig` returns an entry for each of them. -/
theorem readConfig_keeps_empty_parts :
    readConfig (some "=v\nk=\n".toList)
      = Except.ok [([], ['v']), (['k'], [])] := by
  decide

/-! ## Lemmas: a line of 65536 bytes in a receiver file -/

theorem not_mem_padded (n : Nat) : '\n' ∉ 'A' :: List.replicate n ' ' ++ ['1'] := by
  intro h
  rcases List.mem_cons.1 h with h1 | h1
  · exact absurd h1 (by decide)
  · rcases List.mem_append.1 h1 with h2 | h2
    · exact absurd (List.eq_of_mem_replicate h2) (by decide)
    · exact absurd (List.mem_singleton.1 h2) (by decide)

theorem byteLen_padded (n : Nat) : byteLen ('A' :: List.replicate n ' ' ++ ['1']) = n + 2 := by
  have h1 : Char.utf8Size 'A' = 1 := by decide
  have h2 : Char.utf8Size ' ' = 1 := by decide
  have h3 : byteLen ['1'] = 1 := by decide
  rw [List.cons_append, byteLen_cons, byteLen_append, byteLen_replicate, h1, h2, h3]
  omega

theorem fields_padded_line (n : Nat) (h : 0 < n) :
    fields ('A' :: List.replicate n ' ' ++ ['1']) = [['A'], ['1']] := by
  rw [fields_padded n h]
  decide

theorem rawLines_padded (n : Nat) :
    rawLines (('A' :: List.replicate n ' ' ++ ['1']) ++ '\n' :: [])
      = [('A' :: List.replicate n ' ' ++ ['1'])] := by
  rw [rawLines_append_newline _ _ (not_mem_padded n)]
  rfl

/-- A receiver file whose only line is "A", white space, "1" and has 65536 bytes or more. -/
theorem readReceivers_padded (n : Nat) (h : 65534 ≤ n) :
    readReceivers (some (('A' :: List.replicate n ' ' ++ ['1']) ++ '\n' :: []))
      = Except.error IOError.tooLong := by
  apply readReceivers_too_long _ ('A' :: List.replicate n ' ' ++ ['1'])
  · rw [rawLines_padded]
    exact List.mem_singleton.2 rfl
  · rw [byteLen_padded]
    simp only [maxScanTokenSize]
    omega

/-- A receiver file of two lines whose second line is "A", white space, "1" and has 65536
bytes or more. -/
theorem readReceivers_padded_second (n : Nat) (h : 65534 ≤ n) (l0 : Str) (h0 : '\n' ∉ l0) :
    readReceivers (some (l0 ++ '\n' :: (('A' :: List.replicate n ' ' ++ ['1']) ++ '\n' :: [])))
      = Except.error IOError.tooLong := by
  apply readReceivers_too_long _ ('A' :: List.replicate n ' ' ++ ['1'])
  · rw [rawLines_append_newline _ _ h0, rawLines_padded]
    exact List.mem_cons_of_mem _ (List.mem_singleton.2 rfl)
  · rw [byteLen_padded]
    simp only [maxScanTokenSize]
    omega

/-- A receiver file of two lines whose second line is white space of 65536 bytes or more. -/
theorem readReceivers_blank_second (n : Nat) (h : 65536 ≤ n) (l0 : Str) (h0 : '\n' ∉ l0) :
    readReceivers (some (l0 ++ '\n' :: (List.replicate n ' ' ++ '\n' :: [])))
      = Except.error IOError.tooLong := by
  have hnl : '\n' ∉ List.replicate n ' ' := fun hm =>
    absurd (List.eq_of_mem_replicate hm) (by decide)
  apply readReceivers_too_long _ (List.replicate n ' ')
  · rw [rawLines_append_newline _ _ h0, rawLines_append_newline _ _ hnl]
    exact List.mem_cons_of_mem _ (List.mem_cons_self _ _)
  · have h2 : Char.utf8Size ' ' = 1 := by decide
    rw [byteLen_replicate, h2]
    simp only [maxScanTokenSize]
    omega

/-! ## The receiver files and the batch -/

section Batch

variable {σ Addr Coins Cell : Type}

/-- C6: for every destination-to-amount mapping, the batch-building loop of `autoSend` emits
an instruction for an entry if and only if both its address string and its amount string
parse.  The batch is, in the order `range` yields the entries, the list of the instructions
of the entries that parse, so it holds the instructions of the parsing entries of the map
once each; an entry that does not parse adds nothing and does not stop the loop. -/
theorem buildMessages_entries (w : World σ Addr Coins Cell) (comment : Cell) (m : GoMap)
    (s : σ) :
    buildMessages w comment (w.rangeOrder m s).1
        = (w.rangeOrder m s).1.filterMap (entryMessage w comment) ∧
      (buildMessages w comment (w.rangeOrder m s).1).Perm
        (m.filterMap (entryMessage w comment)) ∧
      ∀ e : Str × Str, ((entryMessage w comment e).isSome ↔
        ((w.parseAddr e.1).isSome ∧ (w.fromTON e.2).isSome)) := by
  refine ⟨buildMessages_eq w comment _, ?_, entryMessage_isSome w comment⟩
  rw [buildMessages_eq]
  exact (w.rangeOrder_perm m s).filterMap _

/-- C3 (amended): for every receiver file in which every line has fewer than 65536 bytes
before its line feed (the carriage return of a line that ends with one is counted) and
consists of exactly two fields, an address that parses and an amount that parses, with no
destination repeated, `readReceivers` returns a map without error and the batch-building loop
makes of it exactly as many instructions as the file has lines: the instructions of the lines,
each once, in some order. -/
theorem readReceivers_batch (w : World σ Addr Coins Cell) (comment : Cell)
    (text : List Char) (s : σ)
    (hshort : ∀ l ∈ rawLines text, byteLen l < 65536)
    (hlines : ∀ l ∈ fileLines text, ∃ d a, fields l = [d, a] ∧
      (w.parseAddr d).isSome ∧ (w.fromTON a).isSome)
    (hdistinct : (GoMap.keys ((fileLines text).filterMap lineEntry)).Nodup) :
    ∃ m, readReceivers (some text) = Except.ok m ∧
      (buildMessages w comment (w.rangeOrder m s).1).length = (fileLines text).length ∧
      (buildMessages w comment (w.rangeOrder m s).1).Perm
        ((fileLines text).filterMap
          (fun l => (lineEntry l).bind (entryMessage w comment))) := by
  have hentry : ∀ l ∈ fileLines text, (lineEntry l).isSome := by
    intro l hl
    obtain ⟨d, a, hf, _, _⟩ := hlines l hl
    rw [(lineEntry_eq_some l d a).2 hf]
    rfl
  have hm : (fileLines text).foldl receiverStep [] = (fileLines text).filterMap lineEntry := by
    rw [foldl_receiverStep_eq, foldl_applyEntry_filterMap, List.filterMap_map]
    have hid : (id ∘ lineEntry) = lineEntry := rfl
    rw [hid, foldl_assign_nodup _ [] (by simpa using hdistinct)]
    rfl
  have hperm : (buildMessages w comment
      (w.rangeOrder ((fileLines text).filterMap lineEntry) s).1).Perm
      ((fileLines text).filterMap (fun l => (lineEntry l).bind (entryMessage w comment))) := by
    rw [buildMessages_eq]
    have h1 := (w.rangeOrder_perm ((fileLines text).filterMap lineEntry) s).filterMap
      (entryMessage w comment)
    rw [List.filterMap_filterMap] at h1
    exact h1
  refine ⟨(fileLines text).filterMap lineEntry, ?_, ?_, hperm⟩
  · rw [readReceivers_of_short text hshort, hm]
  · rw [hperm.length_eq]
    apply length_filterMap_of_isSome
    intro l hl
    obtain ⟨d, a, hf, hd, ha⟩ := hlines l hl
    rw [(lineEntry_eq_some l d a).2 hf]
    exact (entryMessage_isSome w comment (d, a)).2 ⟨hd, ha⟩

/-- C4 (amended): for every receiver file in which every line has fewer than 65536 bytes
before its line feed (the carriage return of a line that ends with one is counted), when
the last line that names the destination `d` has the amount `a`, `readReceivers` returns
without error a map whose value at `d` is `a`, `range` over the map yields one entry for
`d`, the entry with the amount `a`, and the batch-building loop makes of the entries for
`d` the one instruction of that entry (none when its address or amount does not parse). -/
theorem readReceivers_last_amount (w : World σ Addr Coins Cell) (comment : Cell)
    (text : List Char) (s : σ) (pre post : List Str) (l d a : Str)
    (hshort : ∀ l ∈ rawLines text, byteLen l < 65536)
    (hsplit : fileLines text = pre ++ l :: post)
    (hl : fields l = [d, a])
    (hpost : ∀ l1 ∈ post, ∀ a1, fields l1 ≠ [d, a1]) :
    ∃ m, readReceivers (some text) = Except.ok m ∧ GoMap.get m d = some a ∧
      (w.rangeOrder m s).1.filter (fun e => decide (e.1 = d)) = [(d, a)] ∧
      buildMessages w comment ((w.rangeOrder m s).1.filter (fun e => decide (e.1 = d)))
        = (entryMessage w comment (d, a)).toList := by
  have hget : GoMap.get ((fileLines text).foldl receiverStep []) d = some a := by
    rw [foldl_receiverStep_eq, hsplit, List.map_append, List.map_cons,
      (lineEntry_eq_some l d a).2 hl]
    apply get_foldl_last
    intro v1 hv
    obtain ⟨l1, hl1, he⟩ := List.mem_map.1 hv
    exact hpost l1 hl1 v1 ((lineEntry_eq_some l1 d v1).1 he)
  have hnodup : (GoMap.keys ((fileLines text).foldl receiverStep [])).Nodup := by
    rw [foldl_receiverStep_eq]
    exact keys_foldl_nodup _ [] (by simp [GoMap.keys])
  refine ⟨(fileLines text).foldl receiverStep [], readReceivers_of_short text hshort,
    hget, ?_⟩
  have hp := w.rangeOrder_perm ((fileLines text).foldl receiverStep []) s
  have ho : (GoMap.keys (w.rangeOrder ((fileLines text).foldl receiverStep []) s).1).Nodup :=
    ((hp.map Prod.fst).nodup_iff).2 hnodup
  have hfilter : (w.rangeOrder ((fileLines text).foldl receiverStep []) s).1.filter
      (fun e => decide (e.1 = d)) = [(d, a)] := by
    apply GoMap.filter_key _ ho
    rw [GoMap.get_perm _ _ hnodup hp]
    exact hget
  refine ⟨hfilter, ?_⟩
  rw [hfilter, buildMessages_eq]
  cases hm : entryMessage w comment (d, a) with
  | none => simp [List.filterMap_cons, hm]
  | some msg => simp [List.filterMap_cons, hm]

end Batch

/-- C5 (amended): for every receiver file in which every line has fewer than 65536 bytes
before its line feed (the carriage return of a line that ends with one is counted),
`readReceivers` returns a map without error; the map has an entry for a destination if and
only if some line has exactly two fields with that destination as the first one; and the
map is the one the file gives when every line with another number of fields is removed. -/
theorem readReceivers_entries (text : List Char)
    (hshort : ∀ l ∈ rawLines text, byteLen l < 65536) :
    ∃ m, readReceivers (some text) = Except.ok m ∧
      (∀ d, (GoMap.get m d).isSome ↔ ∃ l ∈ fileLines text, ∃ a, fields l = [d, a]) ∧
      m = ((fileLines text).filter
        (fun l => decide ((fields l).length = 2))).foldl receiverStep [] := by
  refine ⟨(fileLines text).foldl receiverStep [], readReceivers_of_short text hshort, ?_,
    foldl_receiverStep_filter _ _⟩
  intro d
  rw [foldl_receiverStep_eq, get_foldl_isSome]
  constructor
  · rintro (h | ⟨a, ha⟩)
    · simp [GoMap.get] at h
    · obtain ⟨l, hl, he⟩ := List.mem_map.1 ha
      exact ⟨l, hl, a, (lineEntry_eq_some l d a).1 he⟩
  · rintro ⟨l, hl, a, hf⟩
    exact Or.inr ⟨a, List.mem_map.2 ⟨l, hl, (lineEntry_eq_some l d a).2 hf⟩⟩

/-- C3, witness: a file of two lines in the example world. -/
theorem readReceivers_batch_witness :
    ∃ m, readReceivers (some "A 1\nB 2\n".toList) = Except.ok m ∧
      (buildMessages (demoWorld 0) "hi".toList ((demoWorld 0).rangeOrder m 0).1).length
        = (fileLines "A 1\nB 2\n".toList).length ∧
      (buildMessages (demoWorld 0) "hi".toList ((demoWorld 0).rangeOrder m 0).1).Perm
        ((fileLines "A 1\nB 2\n".toList).filterMap
          (fun l => (lineEntry l).bind (entryMessage (demoWorld 0) "hi".toList))) :=
  readReceivers_batch (demoWorld 0) "hi".toList "A 1\nB 2\n".toList 0 (by decide)
    (by
      have hl : fileLines "A 1\nB 2\n".toList = ["A 1".toList, "B 2".toList] := by decide
      intro l hm
      rw [hl] at hm
      rcases List.mem_cons.1 hm with h1 | h1
      · exact ⟨['A'], ['1'], by rw [h1]; decide, by decide, by decide⟩
      · rw [List.mem_singleton.1 h1]
        exact ⟨['B'], ['2'], by decide, by decide, by decide⟩)
    (by decide)

/-- C3, counterexample: the only line of the file is "A", 65534 spaces, "1".  It has
exactly two fields, which parse in the example world, and no destination is repeated, yet
`readReceivers` returns the error of the Scanner: `autoSend` skips the file and no instruction
is made of its line. -/
theorem readReceivers_batch_long_line :
    fields ('A' :: List.replicate 65534 ' ' ++ ['1']) = [['A'], ['1']] ∧
    ((demoWorld 0).parseAddr ['A']).isSome ∧ ((demoWorld 0).fromTON ['1']).isSome ∧
    rawLines (('A' :: List.replicate 65534 ' ' ++ ['1']) ++ '\n' :: [])
      = [('A' :: List.replicate 65534 ' ' ++ ['1'])] ∧
    readReceivers (some (('A' :: List.replicate 65534 ' ' ++ ['1']) ++ '\n' :: []))
      = Except.error IOError.tooLong :=
  ⟨fields_padded_line 65534 (by decide), by decide, by decide, rawLines_padded 65534,
    readReceivers_padded 65534 (Nat.le_refl _)⟩

/-- C4, witness: the destination "A" is named by the first and the third line. -/
theorem readReceivers_last_amount_witness :
    ∃ m, readReceivers (some "A 1\nB 2\nA 3\nC 4\n".toList) = Except.ok m ∧
      GoMap.get m ['A'] = some ['3'] ∧
      ((demoWorld 0).rangeOrder m 0).1.filter (fun e => decide (e.1 = ['A']))
        = [(['A'], ['3'])] ∧
      buildMessages (demoWorld 0) "hi".toList
          (((demoWorld 0).rangeOrder m 0).1.filter (fun e => decide (e.1 = ['A'])))
        = (entryMessage (demoWorld 0) "hi".toList (['A'], ['3'])).toList :=
  readReceivers_last_amount (demoWorld 0) "hi".toList "A 1\nB 2\nA 3\nC 4\n".toList 0
    ["A 1".toList, "B 2".toList] ["C 4".toList] "A 3".toList ['A'] ['3']
    (by decide) (by decide) (by decide)
    (by
      intro l1 hm a1
      rw [List.mem_singleton.1 hm]
      intro hf
      have hc : fields "C 4".toList = [['C'], ['4']] := by decide
      rw [hc] at hf
      exact absurd (List.cons.inj hf).1 (by decide))

/-- C4, counterexample: the two lines "A 1" and "A", 65534 spaces, "1" name the same
destination and have two fields each, and `readReceivers` returns the error of the Scanner
instead of a map with an entry for "A". -/
theorem readReceivers_last_amount_long_line :
    fields "A 1".toList = [['A'], ['1']] ∧
    fields ('A' :: List.replicate 65534 ' ' ++ ['1']) = [['A'], ['1']] ∧
    readReceivers (some ("A 1".toList ++ '\n' ::
        (('A' :: List.replicate 65534 ' ' ++ ['1']) ++ '\n' :: [])))
      = Except.error IOError.tooLong :=
  ⟨by decide, fields_padded_line 65534 (by decide),
    readReceivers_padded_second 65534 (Nat.le_refl _) "A 1".toList (by decide)⟩

/-- C5, witness: a file with lines of zero, one, two and three fields. -/
theorem readReceivers_entries_witness :
    ∃ m, readReceivers (some "A 1\n\nB\nC 2 3\nD 4\n".toList) = Except.ok m ∧
      (∀ d, (GoMap.get m d).isSome ↔
        ∃ l ∈ fileLines "A 1\n\nB\nC 2 3\nD 4\n".toList, ∃ a, fields l = [d, a]) ∧
      m = ((fileLines "A 1\n\nB\nC 2 3\nD 4\n".toList).filter
        (fun l => decide ((fields l).length = 2))).foldl receiverStep [] :=
  readReceivers_entries "A 1\n\nB\nC 2 3\nD 4\n".toList (by decide)

/-- C5, counterexample: the second line of the file is 65536 spaces, a line with no
field.  With it `readReceivers` returns the error of the Scanner and no entry, and without it
the entry of the first line. -/
theorem readReceivers_entries_long_line :
    fields (List.replicate 65536 ' ') = [] ∧
    readReceivers (some ("A 1".toList ++ '\n' :: (List.replicate 65536 ' ' ++ '\n' :: [])))
      = Except.error IOError.tooLong ∧
    readReceivers (some ("A 1".toList ++ '\n' :: []))
      = Except.ok [(['A'], ['1'])] := by
  refine ⟨?_, readReceivers_blank_second 65536 (Nat.le_refl _) "A 1".toList (by decide),
    by decide⟩
  have h := fieldsFrom_spaces 65536 []
  rw [List.append_nil] at h
  exact h

/-! ## One cycle of autoSend -/

section Cycle

variable {σ Addr Coins Cell : Type}

/-- C1: in one cycle of `autoSend`, if the balance queried for the cycle is below the minimum
of 300000 nano units, then whatever files are pending, `SendManyWaitTxHash` is called for no
file and `os.Rename` is called for no file, so every file keeps its name. -/
theorem autoSend_low_balance (w : World σ Addr Coins Cell) (s : σ) (b : Nat)
    (hq : Event.balance b ∈ (autoSendCycle w s).1) (hb : b < 300000) :
    submitted (autoSendCycle w s).1 = [] ∧ renameCalls (autoSendCycle w s).1 = [] := by
  rcases autoSendCycle_run w s with h | ⟨b0, h⟩ | ⟨b0, h⟩ | ⟨b0, files, ev, hrun, h⟩
  · rw [h]; exact ⟨rfl, rfl⟩
  · rw [h]; exact ⟨rfl, rfl⟩
  · rw [h]; exact ⟨rfl, rfl⟩
  · rw [h] at hq ⊢
    have hb0 : b = b0 := by
      rcases List.mem_cons.1 hq with h1 | h1
      · exact Event.balance.inj h1
      · rcases List.mem_cons.1 h1 with h2 | h2
        · exact absurd h2 (by simp)
        · exact absurd h2 (hrun.no_balance b)
    subst hb0
    have hlow : comparedBalance b < minBalance := by
      unfold comparedBalance minBalance
      exact Nat.lt_of_le_of_lt (Nat.mod_le _ _) hb
    have := hrun.low_balance hlow
    simp only [submitted, renameCalls] at this ⊢
    simpa using this

/-- C2: in every cycle of `autoSend`, if `os.Rename` is called for a file, then
`SendManyWaitTxHash` was called in that cycle for the batch of that file and returned a hash,
and the new path is the one made of that hash.  When the pending files of the cycle are
distinct paths, a file that is renamed had in that cycle no failed `readReceivers`, no failed
creation of the comment payload and no failed submit: a file for which one of them failed
is not renamed and keeps its name. -/
theorem autoSend_rename_after_submit (w : World σ Addr Coins Cell) (s : σ)
    (f new : Str) (ok : Bool)
    (hr : Event.rename f new ok ∈ (autoSendCycle w s).1) :
    (∃ messages txHash, Event.submit f messages (some txHash) ∈ (autoSendCycle w s).1 ∧
      new = newFilePath f txHash) ∧
    ((∀ files, Event.glob files ∈ (autoSendCycle w s).1 → files.Nodup) →
      Event.read f false ∉ (autoSendCycle w s).1 ∧
      Event.commentCell f false ∉ (autoSendCycle w s).1 ∧
      ∀ messages, Event.submit f messages none ∉ (autoSendCycle w s).1) := by
  rcases autoSendCycle_run w s with h | ⟨b0, h⟩ | ⟨b0, h⟩ | ⟨b0, files, ev, hrun, h⟩
  · rw [h] at hr; simp at hr
  · rw [h] at hr; simp at hr
  · rw [h] at hr; simp at hr
  · rw [h] at hr ⊢
    have hr1 : Event.rename f new ok ∈ ev := by simpa using hr
    constructor
    · obtain ⟨m, t, hs, hnew⟩ := hrun.rename_submit f new ok hr1
      exact ⟨m, t, by simp [hs], hnew⟩
    · intro hnodup
      have hn : files.Nodup := hnodup files (by simp)
      obtain ⟨_, h3, h4, h5⟩ := hrun.rename_mem hn f new ok hr1
      refine ⟨?_, ?_, ?_⟩
      · simpa using h3
      · simpa using h4
      · intro m1
        simpa using h5 m1

/-- C9: in every cycle of `autoSend` that reaches the loop over the files with a compared
balance of at least 300000 and a comment text whose payload can be built, the calls to
`SendManyWaitTxHash` are exactly the submits owed: one call for each pending file that the
world lets `readReceivers` read, in the order of the enumeration, with the batch built from
the receivers of that file, also when the batch has no instruction, and a failed submit or a
failed rename of one file does not stop or skip the later files.  `readReceivers` is called
on every pending file in the order of the enumeration, and the files it read without error
are the files submitted. -/
theorem autoSend_submits_readable (w : World σ Addr Coins Cell) (s s1 : σ) (b : Nat)
    (text : Str) (files : List Str) (comment : Cell)
    (hin : loopInputs w s = some (b, text, files, s1))
    (hb : 300000 ≤ comparedBalance b)
    (hc : w.createCommentCell text = some comment) :
    submitCalls (autoSendCycle w s).1 = expectedSubmits w comment files s1 ∧
      readCalls (autoSendCycle w s).1 = files ∧
      readable (autoSendCycle w s).1 = (expectedSubmits w comment files s1).map Prod.fst ∧
      submitted (autoSendCycle w s).1 = readable (autoSendCycle w s).1 := by
  have hhigh : ¬ comparedBalance b < minBalance := by
    unfold minBalance
    exact Nat.not_lt.2 hb
  have hev := autoSendCycle_of_loopInputs w s b text files s1 hin
  have h1 : submitCalls (autoSendCycle w s).1 = expectedSubmits w comment files s1 := by
    rw [hev, ← submitCalls_processFiles w b text comment hhigh hc files s1]
    simp [submitCalls]
  have h2 : readCalls (autoSendCycle w s).1 = files := by
    rw [hev]
    have := (processFiles_run w b text files s1).readCalls_eq hhigh
    simp only [readCalls] at this ⊢
    simpa using this
  have h3 : readable (autoSendCycle w s).1
      = (expectedSubmits w comment files s1).map Prod.fst := by
    rw [hev, ← readable_processFiles w b text comment hhigh hc files s1]
    simp [readable]
  refine ⟨h1, h2, h3, ?_⟩
  rw [submitted_eq_map, h1, h3]

end Cycle

/-- The calls of a cycle of the example world with a balance of one TON. -/
theorem demo_cycle :
    (autoSendCycle (demoWorld 1000000000) 0).1 =
      [Event.balance 1000000000,
       Event.glob ["data/batch1.txt".toList, "data/batch2.txt".toList,
         "data/missing.txt".toList, "data/empty.txt".toList],
       Event.read "data/batch1.txt".toList true,
       Event.commentCell "data/batch1.txt".toList true,
       Event.submit "data/batch1.txt".toList
         [⟨3, true, true, ['B'], ['2'], "hi".toList⟩, ⟨3, true, true, ['A'], ['1'], "hi".toList⟩]
         none,
       Event.read "data/batch2.txt".toList true,
       Event.commentCell "data/batch2.txt".toList true,
       Event.submit "data/batch2.txt".toList [⟨3, true, true, ['C'], ['3'], "hi".toList⟩]
         (some zeroHash),
       Event.rename "data/batch2.txt".toList "data/batch2.txt_AAAAAAAA.log".toList true,
       Event.read "data/missing.txt".toList false,
       Event.read "data/empty.txt".toList true,
       Event.commentCell "data/empty.txt".toList true,
       Event.submit "data/empty.txt".toList [] (some zeroHash),
       Event.rename "data/empty.txt".toList "data/empty.txt_AAAAAAAA.log".toList true] := by
  decide

/-- C1, witness: the example world with a balance of 299999 nano units. -/
theorem autoSend_low_balance_witness :
    Event.balance 299999 ∈ (autoSendCycle (demoWorld 299999) 0).1 ∧
    submitted (autoSendCycle (demoWorld 299999) 0).1 = [] ∧
    renameCalls (autoSendCycle (demoWorld 299999) 0).1 = [] :=
  ⟨by decide, autoSend_low_balance (demoWorld 299999) 0 299999 (by decide) (by decide)⟩

/-- C2, witness: in the example world the second file is renamed after its submit. -/
theorem autoSend_rename_after_submit_witness :
    (∃ messages txHash, Event.submit "data/batch2.txt".toList messages (some txHash)
        ∈ (autoSendCycle (demoWorld 1000000000) 0).1 ∧
      "data/batch2.txt_AAAAAAAA.log".toList = newFilePath "data/batch2.txt".toList txHash) ∧
    Event.read "data/batch2.txt".toList false ∉ (autoSendCycle (demoWorld 1000000000) 0).1 ∧
    Event.commentCell "data/batch2.txt".toList false
      ∉ (autoSendCycle (demoWorld 1000000000) 0).1 ∧
    ∀ messages, Event.submit "data/batch2.txt".toList messages none
      ∉ (autoSendCycle (demoWorld 1000000000) 0).1 :=
  ⟨(autoSend_rename_after_submit (demoWorld 1000000000) 0 "data/batch2.txt".toList
      "data/batch2.txt_AAAAAAAA.log".toList true (by decide)).1,
    (autoSend_rename_after_submit (demoWorld 1000000000) 0 "data/batch2.txt".toList
      "data/batch2.txt_AAAAAAAA.log".toList true (by decide)).2
      (by
        intro files hm
        rw [demo_cycle] at hm
        simp only [List.mem_cons, Event.glob.injEq, reduceCtorEq, false_or, or_false,
          List.not_mem_nil] at hm
        rw [hm]
        decide)⟩

/-- C9, witness: in the example world the first submit fails, the second file is renamed,
the third file cannot be read and the fourth file has no line; the submits are those of
the first, the second and the fourth file. -/
theorem autoSend_submits_readable_witness :
    submitCalls (autoSendCycle (demoWorld 1000000000) 0).1 =
        [("data/batch1.txt".toList,
          [⟨3, true, true, ['B'], ['2'], "hi".toList⟩, ⟨3, true, true, ['A'], ['1'], "hi".toList⟩],
          none),
         ("data/batch2.txt".toList, [⟨3, true, true, ['C'], ['3'], "hi".toList⟩],
          some zeroHash),
         ("data/empty.txt".toList, [], some zeroHash)] ∧
      submitCalls (autoSendCycle (demoWorld 1000000000) 0).1 =
        expectedSubmits (demoWorld 1000000000) "hi".toList
          ["data/batch1.txt".toList, "data/batch2.txt".toList, "data/missing.txt".toList,
            "data/empty.txt".toList] 0 ∧
      readCalls (autoSendCycle (demoWorld 1000000000) 0).1 =
        ["data/batch1.txt".toList, "data/batch2.txt".toList, "data/missing.txt".toList,
          "data/empty.txt".toList] ∧
      readable (autoSendCycle (demoWorld 1000000000) 0).1 =
        (expectedSubmits (demoWorld 1000000000) "hi".toList
          ["data/batch1.txt".toList, "data/batch2.txt".toList, "data/missing.txt".toList,
            "data/empty.txt".toList] 0).map Prod.fst ∧
      submitted (autoSendCycle (demoWorld 1000000000) 0).1 =
        readable (autoSendCycle (demoWorld 1000000000) 0).1 :=
  ⟨by decide,
    autoSend_submits_readable (demoWorld 1000000000) 0 0 1000000000 "hi".toList
      ["data/batch1.txt".toList, "data/batch2.txt".toList, "data/missing.txt".toList,
        "data/empty.txt".toList] "hi".toList
      (by decide) (by decide) (by decide)⟩

/-- C7: the path `autoSend` renames a file to when the encoding of the transaction hash has
a "/" among its first 8 characters.  For the file "data/batch1.txt" and a hash that starts
with the bytes 3 and 240 the new name is "batch1.txt_A/AAAAAA.log", so the new path is in
the directory "data/batch1.txt_A", not in the directory "data" of the file, and its last
element is "AAAAAA.log".  For the hash of 32 zero bytes the new path is
"data/batch1.txt_AAAAAAAA.log", in the directory of the file. -/
theorem newFilePath_slash :
    (encodeToString slashHash.bytes).take 8 = "A/AAAAAA".toList ∧
    newFileName "data/batch1.txt".toList slashHash = "batch1.txt_A/AAAAAA.log".toList ∧
    newFilePath "data/batch1.txt".toList slashHash
      = "data/batch1.txt_A/AAAAAA.log".toList ∧
    dir "data/batch1.txt".toList = "data".toList ∧
    dir (newFilePath "data/batch1.txt".toList slashHash) = "data/batch1.txt_A".toList ∧
    base (newFilePath "data/batch1.txt".toList slashHash) = "AAAAAA.log".toList ∧
    newFilePath "data/batch1.txt".toList zeroHash = "data/batch1.txt_AAAAAAAA.log".toList ∧
    dir (newFilePath "data/batch1.txt".toList zeroHash) = "data".toList := by
  decide

end TONWalletManager
